import Mathlib

/-!
Verification of the bounded backtracking matching engine (`src/backtrack.rs`)
of the `repr` repository, against its natural-language specification.

The embedding translates the Rust source into Lean:

* machine integers (`usize`, `u32`) become `Nat`; the explicit width check
  `usize_to_u32` is modelled as an `Option`-returning function whose `none`
  result models the Rust `panic!`;
* the mutable engine state (`Bounded`'s `matches` buffer plus the `Cache` of
  job stack and visited bitset) becomes explicit state passing: the read-only
  data (`Program`, `Context`) is grouped in `Params`, the mutable data in
  `EState`;
* the `loop`/`while` constructs of `step`, `backtrack` and `exec_` become
  fuel-indexed recursive functions returning `Option` (`none` = fuel
  exhausted, or a Rust panic such as an out-of-bounds slice index);
* `Vec::push`/`Vec::pop` on the job stack (push/pop at the end) become
  `List` cons/head, which realises the same LIFO discipline;
* the element type `I : Integral` is instantiated at `Nat` (the engine is
  parametric in it and the claims do not depend on the instantiation);
* the engine is instrumented with a step-loop iteration counter (`cnt`,
  incremented once per iteration of the `loop` in `step`) and, in the scan
  loop of `exec_`, with a trace of the `(start position, result)` pairs of
  the `backtrack` calls it makes.  Both are pure instrumentation: no control
  decision reads them.

`Context` (`src/context.rs`) and the literal searcher are repository modules
whose sources are not available; they are modelled from the spec as black
boxes (§6 of the spec): positional element access with an end-of-input
sentinel, a zero-width-assertion predicate, and a prefix-skipping oracle.
-/

namespace RB

/-- `type Bits = u32; const BIT_SIZE: usize = 32;` from backtrack.rs. -/
def BIT_SIZE : Nat := 32

/-- `const MAX_SIZE_BYTES: usize = 256 * (1 << 10); // 256 KB` from backtrack.rs. -/
def MAX_SIZE_BYTES : Nat := 256 * (1 <<< 10)

/-- `pub fn should_exec(num_insts: usize, text_len: usize) -> bool` from
backtrack.rs: admission check on the estimated visited-bitset footprint. -/
def should_exec (num_insts : Nat) (text_len : Nat) : Bool :=
  let size := ((num_insts * (text_len + 1) + BIT_SIZE - 1) / BIT_SIZE) * 4
  decide (size ≤ MAX_SIZE_BYTES)

/-- The largest value of a `u32`, for the `usize_to_u32` width check. -/
def U32_MAX : Nat := 4294967295

/-- `fn usize_to_u32(n: usize) -> u32` from backtrack.rs.  The Rust function
panics when `n` exceeds `u32::MAX`; the panic is modelled by `none`. -/
def usize_to_u32 (n : Nat) : Option Nat :=
  if n > U32_MAX then none else some n

/-- The zero-width assertion kinds, `pub enum Zero` from `src/repr.rs`. -/
inductive Zero : Type where
  | Any
  | StartLine
  | EndLine
  | StartText
  | EndText
  | WordBoundary
  | NotWordBoundary
  | WordBoundaryAscii
  | NotWordBoundaryAscii
deriving DecidableEq

/-- Modelled from the spec: `Interval<I>` (`src/interval.rs` is not in the
sources).  It is an inclusive range `[lo, hi]`; its membership test `has`
follows `InstInterval::matches` in `src/regex/prog.rs` (`c < seq.0 → false;
c ≤ seq.1 → true; otherwise false`). -/
structure Interval : Type where
  lo : Nat
  hi : Nat
deriving DecidableEq

/-- `Interval::has`: membership in the inclusive range. -/
def Interval.has (self : Interval) (c : Nat) : Bool :=
  if c < self.lo then false
  else if c ≤ self.hi then true
  else false

/-- The instruction set consumed by the engine, following the patterns
matched by `step` in backtrack.rs (`Inst::Match(slot)`,
`Inst::Split { goto1, goto2 }`, `Inst::Zero { goto, zero }`,
`Inst::One { goto, seq }`, `Inst::Interval { goto, interval }`);
`src/program.rs` itself is not in the sources, but `src/regex/prog.rs`
documents the same variants and payloads. -/
inductive Inst : Type where
  | Match (slot : Nat)
  | Split (goto1 : Nat) (goto2 : Nat)
  | Zero (goto : Nat) (zero : Zero)
  | One (goto : Nat) (seq : Nat)
  | Interval (goto : Nat) (interval : Interval)
deriving DecidableEq

/-- Modelled from the spec: the literal-prefix searcher (§6), consumed as a
black box.  Only its emptiness test is inspected by the engine; the actual
prefix search is delegated to the `Context` oracle `prefix_at`. -/
structure LiteralSearcher : Type where
  lits : List (List Nat)

/-- `LiteralSearcher::is_empty`. -/
def LiteralSearcher.isEmptyLS (self : LiteralSearcher) : Bool :=
  self.lits.isEmpty

/-- Modelled from the spec: the input `Context` (§6), a black box exposing
positional element access (`elems.get? at`, with `none` as the end-of-input
sentinel), a length, a zero-width-assertion predicate `is_empty_match`, and
the prefix-skipping oracle `prefix_at` used for unanchored search. -/
structure Context : Type where
  elems : List Nat
  is_empty_match : Nat → Zero → Bool
  prefix_at : LiteralSearcher → Nat → Option Nat

/-- The compiled program, `pub struct Program<I>` from `src/regex/prog.rs`,
restricted to the fields the backtracking engine reads (`insts`, `matches`,
`start`, `is_anchored_start`, `prefixes`). -/
structure Program : Type where
  insts : List Inst
  matches_ : List Nat
  start : Nat
  is_anchored_start : Bool
  prefixes : LiteralSearcher

/-- `struct Job<I> { ip: Index, at: I }` from backtrack.rs. -/
structure Job : Type where
  ip : Nat
  at_ : Nat
deriving DecidableEq

/-- `pub struct Cache<I> { jobs: Vec<Job<I>>, visited: Vec<Bits> }` from
backtrack.rs.  The job stack has its top at the head of the list. -/
structure Cache : Type where
  jobs : List Job
  visited : List Nat
deriving DecidableEq

/-- `Cache::new`. -/
def Cache.new : Cache := { jobs := [], visited := [] }

/-- The read-only data of a `Bounded` engine invocation: the program and the
input context (`prog` and `context` in `pub struct Bounded`). -/
structure Params : Type where
  prog : Program
  context : Context

/-- The mutable data of a `Bounded` engine invocation: the caller's output
buffer `matches` and the cache `m` (job stack plus visited bitset). -/
structure EState : Type where
  matches_ : List Bool
  m : Cache
deriving DecidableEq

/-- `fn has_visited(&mut self, ip: Index, at: usize) -> bool` from
backtrack.rs.  Computes the state key `k = ip * (len + 1) + at`, the word
index `k1 = k / BIT_SIZE` and the bit mask `k2 = usize_to_u32(1 << (k &
(BIT_SIZE - 1)))`, then tests and sets the bit.  `none` models a panic:
either the `usize_to_u32` width check failing, or the indexing
`self.m.visited[k1]` going out of bounds. -/
def has_visited (ctxLen : Nat) (visited : List Nat) (ip : Nat) (at_ : Nat) :
    Option (Bool × List Nat) :=
  let k := ip * (ctxLen + 1) + at_
  let k1 := k / BIT_SIZE
  match usize_to_u32 (1 <<< (k &&& (BIT_SIZE - 1))) with
  | none => none
  | some k2 =>
    match visited.get? k1 with
    | none => none
    | some w =>
      if w &&& k2 = 0 then some (false, visited.set k1 (w ||| k2))
      else some (true, visited)

/-- `fn step(&mut self, mut ip: Index, mut at: usize) -> bool` from
backtrack.rs, as a fuel-indexed recursion: one recursive call per iteration
of the Rust `loop`.  Returns `(result, state, counter)`; the counter is
incremented once per loop iteration.  `none` models fuel exhaustion or a
panic (`has_visited` panicking, or `self.prog[ip]` out of bounds). -/
def stepGo (p : Params) : Nat → Nat → Nat → EState → Nat →
    Option (Bool × EState × Nat)
  | 0, _, _, _, _ => none
  | fuel + 1, ip, at_, s, cnt =>
    match has_visited p.context.elems.length s.m.visited ip at_ with
    | none => none
    | some (true, _) => some (false, s, cnt + 1)
    | some (false, visited') =>
      let s := { s with m := { s.m with visited := visited' } }
      match p.prog.insts.get? ip with
      | none => none
      | some inst =>
        match inst with
        | Inst.Match slot =>
          let s :=
            if slot < s.matches_.length then
              { s with matches_ := s.matches_.set slot true }
            else s
          some (true, s, cnt + 1)
        | Inst.Split goto1 goto2 =>
          stepGo p fuel goto1 at_
            { s with m := { s.m with jobs := ⟨goto2, at_⟩ :: s.m.jobs } }
            (cnt + 1)
        | Inst.Zero goto zero =>
          if p.context.is_empty_match at_ zero then
            stepGo p fuel goto at_ s (cnt + 1)
          else some (false, s, cnt + 1)
        | Inst.One goto seq =>
          match p.context.elems.get? at_ with
          | some c => if seq = c then stepGo p fuel goto (at_ + 1) s (cnt + 1)
                      else some (false, s, cnt + 1)
          | none => some (false, s, cnt + 1)
        | Inst.Interval goto interval =>
          match p.context.elems.get? at_ with
          | some c => if interval.has c then
                        stepGo p fuel goto (at_ + 1) s (cnt + 1)
                      else some (false, s, cnt + 1)
          | none => some (false, s, cnt + 1)

/-- The bit capacity of the visited set: one bit per
`(instruction, position)` pair, instructions `0 ≤ ip < m` and positions
`0 ≤ at ≤ n`. -/
def capacity (p : Params) : Nat :=
  p.prog.insts.length * (p.context.elems.length + 1)

/-- Fuel that always suffices for one `step` call: the inner loop marks a
fresh visited bit on every iteration it does not return from. -/
def stepFuel (p : Params) : Nat := capacity p + 1

/-- The `while let Some(job) = self.m.jobs.pop()` loop of
`fn backtrack(&mut self, at: I) -> bool` from backtrack.rs, as a
fuel-indexed recursion (one recursive call per popped job). -/
def backtrackGo (p : Params) : Nat → EState → Bool → Nat →
    Option (Bool × EState × Nat)
  | 0, _, _, _ => none
  | fuel + 1, s, matched, cnt =>
    match s.m.jobs with
    | [] => some (matched, s, cnt)
    | job :: rest =>
      let s := { s with m := { s.m with jobs := rest } }
      match stepGo p (stepFuel p) job.ip job.at_ s cnt with
      | none => none
      | some (r, s', cnt') =>
        if r then
          if p.prog.matches_.length = 1 then some (true, s', cnt')
          else backtrackGo p fuel s' true cnt'
        else backtrackGo p fuel s' matched cnt'

/-- Fuel that always suffices for one `backtrack` call's while loop. -/
def loopFuel (p : Params) : Nat := capacity p + 2

/-- `fn backtrack(&mut self, at: I) -> bool` from backtrack.rs: push the
single initial job `Job { ip: 0, at }` and drain the stack. -/
def backtrack (p : Params) (at_ : Nat) (s : EState) (cnt : Nat) :
    Option (Bool × EState × Nat) :=
  let s := { s with m := { s.m with jobs := ⟨0, at_⟩ :: s.m.jobs } }
  backtrackGo p (loopFuel p) s false cnt

/-- A variant of `backtrack` whose initial job follows the spec's words
(§4.4: "push a single job `(program-start-index, start-position)`"; §4.5:
"initial state = `(program.start, search-start-position)`") instead of the
source's `Job { ip: 0, at }`.  Used to compare the spec against the code. -/
def backtrack_startSpec (p : Params) (at_ : Nat) (s : EState) (cnt : Nat) :
    Option (Bool × EState × Nat) :=
  let s := { s with m := { s.m with jobs := ⟨p.prog.start, at_⟩ :: s.m.jobs } }
  backtrackGo p (loopFuel p) s false cnt

/-- `fn clear(&mut self)` from backtrack.rs: empty the job stack, truncate
the visited bitset to `visited_len` words, zero every retained word, and
push zero words until the bitset has exactly `visited_len` words. -/
def clear (p : Params) (m : Cache) : Cache :=
  let visited_len :=
    (p.prog.insts.length * (p.context.elems.length + 1) + BIT_SIZE - 1) /
      BIT_SIZE
  let visited := (m.visited.take visited_len).map (fun _ => 0)
  let visited :=
    if visited_len > visited.length then
      visited ++ List.replicate (visited_len - visited.length) 0
    else visited
  { jobs := [], visited := visited }

/-- The scan loop of `fn exec_(&mut self, mut at: usize, end: usize)` from
backtrack.rs, as a fuel-indexed recursion.  `tr` is the instrumentation
trace: one `(position, result)` pair per `backtrack` call made. -/
def execGo (p : Params) : Nat → EState → Nat → Nat → Bool → Nat →
    List (Nat × Bool) → Option (Bool × EState × Nat × List (Nat × Bool))
  | 0, _, _, _, _, _, _ => none
  | fuel + 1, s, at_, end_, matched, cnt, tr =>
    match (if p.prog.prefixes.isEmptyLS then some at_
           else p.context.prefix_at p.prog.prefixes at_) with
    | none => some (matched, s, cnt, tr)
    | some at' =>
      match backtrack p at' s cnt with
      | none => none
      | some (r, s', cnt') =>
        let matched' := r || matched
        let tr' := tr ++ [(at', r)]
        if matched' && decide (p.prog.matches_.length = 1) then
          some (true, s', cnt', tr')
        else if decide (at' ≥ end_) then some (matched', s', cnt', tr')
        else execGo p fuel s' (at' + 1) end_ matched' cnt' tr'

/-- Fuel that always suffices for the scan loop of `exec_` when the prefix
oracle never moves backwards. -/
def execFuel (end_ : Nat) : Nat := end_ + 2

/-- `fn exec_(&mut self, mut at: usize, end: usize) -> bool` from
backtrack.rs: clear the cache; for an anchored program run `backtrack` once
from `at`; otherwise run the unanchored scan loop. -/
def exec_ (p : Params) (s : EState) (at_ : Nat) (end_ : Nat) :
    Option (Bool × EState × Nat × List (Nat × Bool)) :=
  let s := { s with m := clear p s.m }
  if p.prog.is_anchored_start then
    (backtrack p at_ s 0).map (fun r => (r.1, r.2.1, r.2.2, [(at_, r.1)]))
  else
    execGo p (execFuel end_) s at_ end_ false 0 []

/-! Well-formedness of compiled programs (§3 of the spec: "every
`goto`/branch target inside an instruction is a valid index into the same
sequence"; out-of-range targets are upstream compiler-contract violations,
§7).  Nonemptiness makes the entry instruction `0` valid. -/

/-- Every branch target of the instruction is a valid index below `m`. -/
def instGotosOk (m : Nat) : Inst → Bool
  | .Match _ => true
  | .Split goto1 goto2 => decide (goto1 < m) && decide (goto2 < m)
  | .Zero goto _ => decide (goto < m)
  | .One goto _ => decide (goto < m)
  | .Interval goto _ => decide (goto < m)

/-- Compiler contract on programs fed to the engine. -/
def Program.WF (prog : Program) : Prop :=
  0 < prog.insts.length ∧
    ∀ i ∈ prog.insts, instGotosOk prog.insts.length i = true

/-- Contract on the prefix oracle (§6: it returns "the next place within a
tail of the input where a known literal prefix could begin"): it never moves
backwards and returns a valid position. -/
def PfxMono (p : Params) : Prop :=
  ∀ ls a a', p.context.prefix_at ls a = some a' →
    a ≤ a' ∧ a' ≤ p.context.elems.length

/-! Observables of the visited bitset. -/

/-- Whether the state key `k` is marked in the visited bitset (bit `k % B`
of word `k / B`, §3 of the spec). -/
def testKey (visited : List Nat) (k : Nat) : Bool :=
  (visited.getD (k / BIT_SIZE) 0).testBit (k % BIT_SIZE)

/-- The state key of an `(ip, at)` pair: `ip * (len(input)+1) + at`. -/
def keyOf (ctxLen ip at_ : Nat) : Nat := ip * (ctxLen + 1) + at_

/-- The set of marked keys below the capacity bound `U`. -/
def markedBelow (U : Nat) (visited : List Nat) : Finset Nat :=
  (Finset.range U).filter (fun k => testKey visited k = true)

/-- The number of words `clear` sizes the visited bitset to. -/
def visitedLen (p : Params) : Nat := (capacity p + BIT_SIZE - 1) / BIT_SIZE

/-- A trace of `(start position, backtrack result)` pairs is short-circuit
correct for overall result `r`: when `r` is true the trace consists of
failed attempts followed by one final successful attempt (nothing is tried
after the success); when `r` is false every attempt failed. -/
def OkTrace (r : Bool) (tr : List (Nat × Bool)) : Prop :=
  match r with
  | true => ∃ pre q, tr = pre ++ [(q, true)] ∧ ∀ x ∈ pre, x.2 = false
  | false => ∀ x ∈ tr, x.2 = false

/-- Two result buffers arise from two same-length input buffers by the same
set of `true`-writes: at every index either both are unchanged or both were
written `true`. -/
def wrel (b1 b1' b2 b2' : List Bool) : Prop :=
  ∀ i, (b1'.get? i = b1.get? i ∧ b2'.get? i = b2.get? i) ∨
       (b1'.get? i = some true ∧ b2'.get? i = some true)

/-! Concrete programs and contexts used to exercise the engine. -/

/-- An empty literal searcher (no prefixes). -/
def noPfx : LiteralSearcher := ⟨[]⟩

/-- A concrete context over the given elements, with a trivial zero-width
predicate and no prefix oracle. -/
def ctxOf (l : List Nat) : Context := ⟨l, fun _ _ => true, fun _ _ => none⟩

/-- The spec's §8 concrete scenario: pattern `a|b` compiled as
`Split(One('a')→Match(0), One('b')→Match(0))`, single pattern, unanchored. -/
def progAB : Program := ⟨[.Split 1 3, .One 2 97, .Match 0, .One 2 98], [2], 0, false, noPfx⟩

/-- The `a|b` scenario over input `"xba"`. -/
def pAB : Params := ⟨progAB, ctxOf [120, 98, 97]⟩

/-- A one-instruction self-loop program `Split(0, 0)`, anchored. -/
def progLoop : Program := ⟨[.Split 0 0], [0], 0, true, noPfx⟩

/-- The self-loop program over the empty input. -/
def pLoop : Params := ⟨progLoop, ctxOf []⟩

/-- A program whose `start` field is 1 (not 0): instruction 0 consumes an
element, instruction 1 is `Match`. -/
def progStart1 : Program := ⟨[.One 1 97, .Match 0], [1], 1, true, noPfx⟩

/-- The `start = 1` program over the empty input. -/
def pStart1 : Params := ⟨progStart1, ctxOf []⟩

/-- A program whose only instruction is `Match(5)`: its match slot lies
beyond a length-2 output buffer. -/
def progMatch5 : Program := ⟨[.Match 5], [0], 0, true, noPfx⟩

/-- The `Match(5)` program over the empty input. -/
def pMatch5 : Params := ⟨progMatch5, ctxOf []⟩

/-! ## Theorems -/

/-- C2: `should_exec(num_instructions, text_length)` returns true iff
`ceil(num_instructions * (text_length + 1) / 32) * 4 ≤ 262144` bytes
(256 KiB); purity holds by construction (it is a function of its two
arguments alone). -/
theorem should_exec_ceiling_iff (num_insts text_len : Nat) :
    should_exec num_insts text_len = true ↔
      ((num_insts * (text_len + 1)) ⌈/⌉ 32) * 4 ≤ 262144 := by
  rw [Nat.ceilDiv_eq_add_pred_div]
  simp [should_exec, BIT_SIZE, MAX_SIZE_BYTES]

/-- C3 counterexample: `should_exec(1000, 1000)` returns `true`, not
`false` as claimed (the computed size, 125128 bytes, is below the 256 KiB
ceiling). -/
theorem should_exec_1000_1000_true : should_exec 1000 1000 = true := by decide

/-- C3 amended: `should_exec(1000, 1000)` returns `true` — its computed
size is `ceil(1000*1001/32)*4 = 125128 ≤ 262144` bytes; at the exact
ceiling (`2048` instructions, text length `1023`, size exactly 262144) it
still returns `true`, and just above the ceiling it returns `false`. -/
theorem should_exec_1000_1000_amended :
    should_exec 1000 1000 = true ∧
      ((1000 * (1000 + 1) + 31) / 32) * 4 = 125128 ∧
      should_exec 2048 1023 = true ∧
      should_exec 2097153 0 = false := by decide

/-- Helper: the bit mask `1 << (k & (BIT_SIZE - 1))` always fits a `u32`,
so the `usize_to_u32` width check inside `has_visited` never panics. -/
theorem usize_to_u32_mask (k : Nat) :
    usize_to_u32 (1 <<< (k &&& (BIT_SIZE - 1))) =
      some (1 <<< (k &&& (BIT_SIZE - 1))) := by
  have h31 : k &&& (BIT_SIZE - 1) ≤ 31 := Nat.and_le_right
  have : (1 : Nat) <<< (k &&& (BIT_SIZE - 1)) ≤ 2 ^ 31 := by
    rw [Nat.one_shiftLeft]
    exact Nat.pow_le_pow_right (by decide) h31
  unfold usize_to_u32
  rw [if_neg]
  simp only [gt_iff_lt, not_lt]
  exact le_trans this (by decide)

/-- C9 counterexample: the engine can abort although the computed key fits
the 32-bit counter: at `ip = 33`, `at = 0` over an empty input the key is
`33 ≤ u32::MAX`, yet `has_visited` panics (word index 1 is out of bounds of
a one-word bitset). So "aborts only when the key would not fit" is false. -/
theorem has_visited_abort_small_key :
    has_visited 0 [0] 33 0 = none ∧ keyOf 0 33 0 ≤ U32_MAX := by decide

/-- C9 amended: the `usize_to_u32` width check in `has_visited` is applied
to the single-bit mask `1 << (k & 31)`, which always fits 32 bits, so that
check never aborts; `has_visited` aborts exactly when the word index
`k / 32` falls outside the allocated bitset, regardless of whether the key
`k` itself fits 32 bits. -/
theorem has_visited_abort_iff (ctxLen : Nat) (visited : List Nat)
    (ip at_ : Nat) :
    has_visited ctxLen visited ip at_ = none ↔
      visited.length ≤ (keyOf ctxLen ip at_) / BIT_SIZE := by
  unfold has_visited
  simp only [usize_to_u32_mask, keyOf]
  cases h : (visited.get? ((ip * (ctxLen + 1) + at_) / BIT_SIZE)) with
  | none =>
    have := List.get?_eq_none.mp h
    simp [h, this]
  | some w =>
    have hlt := List.get?_eq_some.mp h
    obtain ⟨hl, -⟩ := hlt
    simp only [h]
    constructor
    · intro hnone
      by_cases hz : w &&& (1 <<< ((ip * (ctxLen + 1) + at_) &&& (BIT_SIZE - 1))) = 0 <;>
        simp [hz] at hnone
    · intro hle
      exact absurd hl (Nat.not_lt.mpr hle)

/-- Helper: `clear` always produces the empty job stack and a zeroed bitset
of exactly `visitedLen p` words, whatever the prior cache contents. -/
theorem clear_eq_replicate (p : Params) (m : Cache) :
    clear p m = ⟨[], List.replicate (visitedLen p) 0⟩ := by
  have hmap : ∀ (l : List Nat), l.map (fun _ => (0 : Nat)) =
      List.replicate l.length 0 := by
    intro l; induction l with
    | nil => rfl
    | cons a t ih => simp [List.map_cons, ih, List.replicate_succ]
  unfold clear visitedLen capacity
  simp only [hmap, List.length_take, List.length_replicate, Cache.mk.injEq,
    true_and, gt_iff_lt]
  set v := (p.prog.insts.length * (p.context.elems.length + 1) + BIT_SIZE - 1) /
      BIT_SIZE with hv
  rcases Nat.lt_or_ge (m.visited.length) v with hlt | hge
  · rw [min_eq_right (Nat.le_of_lt hlt), if_pos hlt, ← List.replicate_add]
    congr 1
    omega
  · rw [min_eq_left hge, if_neg (by omega)]

/-- C6: `clear` empties the job stack and leaves the visited bitset with
exactly `ceil(num_instructions * (len(input)+1) / 32)` words, all zero,
for every prior cache state (existing allocation truncated and zeroed when
large enough, grown zero-filled otherwise). -/
theorem clear_spec (p : Params) (m : Cache) :
    (clear p m).jobs = [] ∧
      (clear p m).visited =
        List.replicate ((p.prog.insts.length * (p.context.elems.length + 1) +
          BIT_SIZE - 1) / BIT_SIZE) 0 := by
  rw [clear_eq_replicate]
  exact ⟨rfl, rfl⟩

/-- C5 counterexample: for a concrete program whose `start` index is 1,
`backtrack` does not behave as if the initial job were
`(program.start, position)`: the engine (which pushes instruction index 0)
returns `false`, while the spec-faithful variant pushing `program.start`
returns `true`. -/
theorem backtrack_initial_not_start :
    pStart1.prog.start = 1 ∧
      (backtrack pStart1 0 ⟨[false], ⟨[], [0]⟩⟩ 0).map (fun r => r.1) =
        some false ∧
      (backtrack_startSpec pStart1 0 ⟨[false], ⟨[], [0]⟩⟩ 0).map (fun r => r.1) =
        some true := by decide

/-- C5 amended: `backtrack` begins by pushing exactly one job whose
instruction index is 0 (the hard-coded entry point `Job { ip: 0, at }`)
and whose position is the given start position; this coincides with the
claimed `(program.start, position)` exactly when the program's start index
is 0. -/
theorem backtrack_initial_ip_zero (p : Params) (at_ : Nat) (s : EState)
    (cnt : Nat) (h : p.prog.start = 0) :
    backtrack p at_ s cnt = backtrack_startSpec p at_ s cnt := by
  unfold backtrack backtrack_startSpec
  rw [h]

/-- C5 amended, witness: the amended equality applied to the `a|b` program
(whose start index is 0). -/
theorem backtrack_initial_ip_zero_witness :
    pAB.prog.start = 0 ∧
      backtrack pAB 0 ⟨[false], Cache.new⟩ 0 =
        backtrack_startSpec pAB 0 ⟨[false], Cache.new⟩ 0 :=
  ⟨rfl, backtrack_initial_ip_zero pAB 0 ⟨[false], Cache.new⟩ 0 rfl⟩

/-- C10: when `step` reaches `Match(slot)` on an unvisited state it signals
success regardless of whether `slot` is within the output buffer, and the
flag write happens only when `slot < len(output)`; concretely, a program
whose only reachable match slot is 5 run against a length-2 buffer makes
`exec_` return `true` while writing no flag. -/
theorem step_match_oob (p : Params) (fuel ip at_ cnt slot : Nat) (s : EState)
    (v' : List Nat)
    (hinst : p.prog.insts.get? ip = some (Inst.Match slot))
    (hvis : has_visited p.context.elems.length s.m.visited ip at_ =
      some (false, v')) :
    stepGo p (fuel + 1) ip at_ s cnt =
      some (true,
        ⟨if slot < s.matches_.length then s.matches_.set slot true
          else s.matches_, ⟨s.m.jobs, v'⟩⟩, cnt + 1) ∧
    (¬ slot < s.matches_.length →
      stepGo p (fuel + 1) ip at_ s cnt = some (true, ⟨s.matches_, ⟨s.m.jobs, v'⟩⟩, cnt + 1)) ∧
    (exec_ pMatch5 ⟨[false, false], Cache.new⟩ 0 0).map
        (fun r => (r.1, r.2.1.matches_)) = some (true, [false, false]) := by
  refine ⟨?_, ?_, by decide⟩
  · rw [stepGo, hvis, hinst]
    by_cases hs : slot < s.matches_.length <;> simp [hs]
  · intro hs
    rw [stepGo, hvis, hinst]
    simp [hs]

/-! ### Bitset lemmas: `has_visited` as a test-and-set on state keys -/

/-- A word AND a one-bit mask is zero iff that bit of the word is clear. -/
theorem and_two_pow_eq_zero_iff (w i : Nat) :
    w &&& 2 ^ i = 0 ↔ w.testBit i = false := by
  constructor
  · intro h
    have := congrArg (fun x => x.testBit i) h
    simpa [Nat.testBit_and, Nat.testBit_two_pow_self] using this
  · intro h
    apply Nat.eq_of_testBit_eq
    intro j
    simp only [Nat.testBit_and, Nat.zero_testBit]
    by_cases hj : j = i
    · subst hj; simp [h]
    · simp [Nat.testBit_two_pow_of_ne (fun hh => hj hh.symm)]

/-- The mask exponent: `k &&& (BIT_SIZE - 1) = k % BIT_SIZE`. -/
theorem and_BIT_SIZE_sub_one (k : Nat) : k &&& (BIT_SIZE - 1) = k % BIT_SIZE := by
  have h32 : BIT_SIZE = 2 ^ 5 := by decide
  rw [h32]
  exact Nat.and_pow_two_sub_one_eq_mod k 5

/-- No key is marked in a freshly zeroed bitset. -/
theorem testKey_replicate (n k : Nat) :
    testKey (List.replicate n 0) k = false := by
  unfold testKey
  have : (List.replicate n (0 : Nat)).getD (k / BIT_SIZE) 0 = 0 := by
    rw [List.getD_eq_getElem?_getD, List.getElem?_replicate]
    split <;> rfl
  rw [this]
  exact Nat.zero_testBit _

/-- `has_visited` on a marked in-bounds key answers `true` and leaves the
bitset unchanged. -/
theorem has_visited_marked (ctxLen : Nat) (visited : List Nat) (ip at_ : Nat)
    (hk1 : keyOf ctxLen ip at_ / BIT_SIZE < visited.length)
    (h : testKey visited (keyOf ctxLen ip at_) = true) :
    has_visited ctxLen visited ip at_ = some (true, visited) := by
  have hkey : keyOf ctxLen ip at_ = ip * (ctxLen + 1) + at_ := rfl
  rw [hkey] at hk1 h
  unfold has_visited
  simp only [usize_to_u32_mask]
  have hg : visited.get? ((ip * (ctxLen + 1) + at_) / BIT_SIZE) =
      some (visited.getD ((ip * (ctxLen + 1) + at_) / BIT_SIZE) 0) := by
    rw [List.get?_eq_getElem?, List.getD_eq_getElem?_getD,
      List.getElem?_eq_getElem hk1]
    rfl
  simp only [hg]
  have hnz : ¬ (visited.getD ((ip * (ctxLen + 1) + at_) / BIT_SIZE) 0 &&&
      1 <<< ((ip * (ctxLen + 1) + at_) &&& (BIT_SIZE - 1)) = 0) := by
    rw [Nat.one_shiftLeft, and_BIT_SIZE_sub_one, and_two_pow_eq_zero_iff]
    unfold testKey at h
    simpa using h
  rw [if_neg hnz]

/-- The updated bitset written by a successful (unmarked) `has_visited`. -/
def markKey (visited : List Nat) (k : Nat) : List Nat :=
  visited.set (k / BIT_SIZE)
    ((visited.getD (k / BIT_SIZE) 0) ||| 2 ^ (k % BIT_SIZE))

/-- `has_visited` on an unmarked in-bounds key answers `false` and sets the
key's bit. -/
theorem has_visited_unmarked (ctxLen : Nat) (visited : List Nat) (ip at_ : Nat)
    (hk1 : keyOf ctxLen ip at_ / BIT_SIZE < visited.length)
    (h : testKey visited (keyOf ctxLen ip at_) = false) :
    has_visited ctxLen visited ip at_ =
      some (false, markKey visited (keyOf ctxLen ip at_)) := by
  have hkey : keyOf ctxLen ip at_ = ip * (ctxLen + 1) + at_ := rfl
  rw [hkey] at hk1 h ⊢
  unfold has_visited markKey
  simp only [usize_to_u32_mask]
  have hg : visited.get? ((ip * (ctxLen + 1) + at_) / BIT_SIZE) =
      some (visited.getD ((ip * (ctxLen + 1) + at_) / BIT_SIZE) 0) := by
    rw [List.get?_eq_getElem?, List.getD_eq_getElem?_getD,
      List.getElem?_eq_getElem hk1]
    rfl
  simp only [hg]
  have hz : visited.getD ((ip * (ctxLen + 1) + at_) / BIT_SIZE) 0 &&&
      1 <<< ((ip * (ctxLen + 1) + at_) &&& (BIT_SIZE - 1)) = 0 := by
    rw [Nat.one_shiftLeft, and_BIT_SIZE_sub_one, and_two_pow_eq_zero_iff]
    unfold testKey at h
    exact h
  rw [if_pos hz, Nat.one_shiftLeft, and_BIT_SIZE_sub_one]

/-- `markKey` preserves the bitset length. -/
theorem markKey_length (visited : List Nat) (k : Nat) :
    (markKey visited k).length = visited.length := by
  unfold markKey; exact List.length_set ..

/-- `markKey` marks the key. -/
theorem testKey_markKey_self (visited : List Nat) (k : Nat)
    (hk1 : k / BIT_SIZE < visited.length) :
    testKey (markKey visited k) k = true := by
  unfold testKey markKey
  simp [List.getD_eq_getElem?_getD, List.getElem?_set_self hk1,
    Nat.testBit_lor, Nat.testBit_two_pow_self]

/-- `markKey` at key `j` leaves every other key `k` unchanged. -/
theorem testKey_markKey_other (visited : List Nat) (j k : Nat) (hne : k ≠ j) :
    testKey (markKey visited j) k = testKey visited k := by
  have h32 : BIT_SIZE = 32 := rfl
  unfold testKey markKey
  by_cases hdiv : k / BIT_SIZE = j / BIT_SIZE
  · have hmod : k % BIT_SIZE ≠ j % BIT_SIZE := by
      intro hmod
      apply hne
      rw [h32] at hdiv hmod
      omega
    by_cases hlt : j / BIT_SIZE < visited.length
    · rw [hdiv]
      simp only [List.getD_eq_getElem?_getD, List.getElem?_set_self hlt,
        Option.getD_some]
      rw [Nat.testBit_lor,
        Nat.testBit_two_pow_of_ne (fun hh => hmod (by rw [h32] at hh ⊢; omega))]
      simp
    · rw [List.set_eq_of_length_le (by omega)]
  · simp [List.getD_eq_getElem?_getD,
      List.getElem?_set_ne (fun hh => hdiv hh.symm)]

/-- Marked keys below `U` number at most `U`. -/
theorem markedBelow_card_le (U : Nat) (v : List Nat) :
    (markedBelow U v).card ≤ U := by
  calc (markedBelow U v).card ≤ (Finset.range U).card :=
        Finset.card_filter_le _ _
    _ = U := Finset.card_range U

/-- Pointwise bit monotonicity gives marked-set monotonicity. -/
theorem markedBelow_mono (U : Nat) (v v' : List Nat)
    (h : ∀ j, testKey v j = true → testKey v' j = true) :
    markedBelow U v ⊆ markedBelow U v' := by
  intro j hj
  simp only [markedBelow, Finset.mem_filter, Finset.mem_range] at hj ⊢
  exact ⟨hj.1, h j hj.2⟩

/-- Marking a fresh key below `U` grows the marked count by exactly one. -/
theorem markedBelow_markKey_card (U k : Nat) (v : List Nat)
    (hkU : k < U) (hk1 : k / BIT_SIZE < v.length)
    (h : testKey v k = false) :
    (markedBelow U (markKey v k)).card = (markedBelow U v).card + 1 := by
  have hset : markedBelow U (markKey v k) = insert k (markedBelow U v) := by
    ext j
    simp only [markedBelow, Finset.mem_filter, Finset.mem_range,
      Finset.mem_insert]
    by_cases hj : j = k
    · subst hj
      simp [hkU, testKey_markKey_self v j hk1]
    · rw [testKey_markKey_other v k j (by omega)]
      tauto
  rw [hset, Finset.card_insert_of_not_mem]
  simp only [markedBelow, Finset.mem_filter, Finset.mem_range, not_and]
  intro _
  simp [h]

/-- The state key of an in-contract `(ip, at)` pair is below capacity. -/
theorem keyOf_lt_capacity (p : Params) (ip at_ : Nat)
    (hip : ip < p.prog.insts.length) (hat : at_ ≤ p.context.elems.length) :
    keyOf p.context.elems.length ip at_ < capacity p := by
  unfold keyOf capacity
  calc ip * (p.context.elems.length + 1) + at_
      < ip * (p.context.elems.length + 1) + (p.context.elems.length + 1) := by omega
    _ = (ip + 1) * (p.context.elems.length + 1) := by ring
    _ ≤ p.prog.insts.length * (p.context.elems.length + 1) :=
        Nat.mul_le_mul_right _ hip

/-- A key below capacity indexes a word inside the `clear`-sized bitset. -/
theorem key_div_lt_visitedLen (p : Params) (k : Nat) (hk : k < capacity p) :
    k / BIT_SIZE < visitedLen p := by
  unfold visitedLen
  have hcap : 0 < capacity p := by omega
  have h1 : k / BIT_SIZE ≤ (capacity p - 1) / BIT_SIZE :=
    Nat.div_le_div_right (by omega)
  have h2 : (capacity p - 1) / BIT_SIZE < (capacity p + BIT_SIZE - 1) / BIT_SIZE := by
    have : capacity p + BIT_SIZE - 1 = (capacity p - 1) + BIT_SIZE := by
      have h32 : BIT_SIZE = 32 := by decide
      omega
    rw [this, Nat.add_div_right _ (by decide)]
    omega
  omega

/-! ### The step loop: termination, visit counting, job discipline -/

/-- The inductive specification of one `step` call.  Under the compiler
contract, starting from an in-contract `(ip, at)` pair with a
`clear`-sized bitset and fuel exceeding the unmarked capacity, `step`
returns (no panic, no fuel exhaustion); it marks `d` fresh keys, never
clears a visited bit, pushes at most `d` new in-contract jobs, runs at most
`d + 1` loop iterations, and preserves the bitset and output-buffer
lengths. -/
theorem stepGo_spec (p : Params) (hwf : p.prog.WF) :
    ∀ fuel ip at_ (s : EState) cnt,
    ip < p.prog.insts.length → at_ ≤ p.context.elems.length →
    s.m.visited.length = visitedLen p →
    capacity p + 1 ≤ (markedBelow (capacity p) s.m.visited).card + fuel →
    ∃ r s' cnt' d newJobs,
      stepGo p fuel ip at_ s cnt = some (r, s', cnt') ∧
      s'.m.visited.length = visitedLen p ∧
      s'.matches_.length = s.matches_.length ∧
      (∀ j, testKey s.m.visited j = true → testKey s'.m.visited j = true) ∧
      (markedBelow (capacity p) s'.m.visited).card =
        (markedBelow (capacity p) s.m.visited).card + d ∧
      s'.m.jobs = newJobs ++ s.m.jobs ∧
      (∀ j ∈ newJobs, j.ip < p.prog.insts.length ∧
        j.at_ ≤ p.context.elems.length) ∧
      newJobs.length ≤ d ∧
      cnt' ≤ cnt + d + 1 := by
  intro fuel
  induction fuel with
  | zero =>
    intro ip at_ s cnt hip hat hlen hfuel
    exact absurd hfuel (by
      have := markedBelow_card_le (capacity p) s.m.visited
      omega)
  | succ fuel ih =>
    intro ip at_ s cnt hip hat hlen hfuel
    have hkcap := keyOf_lt_capacity p ip at_ hip hat
    have hk1 : keyOf p.context.elems.length ip at_ / BIT_SIZE <
        s.m.visited.length := by
      rw [hlen]; exact key_div_lt_visitedLen p _ hkcap
    cases htk : testKey s.m.visited (keyOf p.context.elems.length ip at_) with
    | true =>
      refine ⟨false, s, cnt + 1, 0, [], ?_, hlen, rfl, fun j hj => hj,
        by omega, rfl, by simp, by simp, by omega⟩
      simp only [stepGo, has_visited_marked _ _ _ _ hk1 htk]
    | false =>
      have hmk := has_visited_unmarked _ _ _ _ hk1 htk
      have hlen' : (markKey s.m.visited
          (keyOf p.context.elems.length ip at_)).length = visitedLen p := by
        rw [markKey_length, hlen]
      have hmono : ∀ j, testKey s.m.visited j = true →
          testKey (markKey s.m.visited
            (keyOf p.context.elems.length ip at_)) j = true := by
        intro j hj
        rcases eq_or_ne j (keyOf p.context.elems.length ip at_) with rfl | hne
        · exact testKey_markKey_self _ _ hk1
        · rw [testKey_markKey_other _ _ _ hne]; exact hj
      have hcard : (markedBelow (capacity p) (markKey s.m.visited
            (keyOf p.context.elems.length ip at_))).card =
          (markedBelow (capacity p) s.m.visited).card + 1 :=
        markedBelow_markKey_card _ _ _ hkcap hk1 htk
      have hinst : p.prog.insts.get? ip =
          some (p.prog.insts.get ⟨ip, hip⟩) := List.get?_eq_get hip
      have hgotos := hwf.2 _ (p.prog.insts.get_mem ip hip)
      cases hi : p.prog.insts.get ⟨ip, hip⟩ with
      | Match slot =>
        rw [hi] at hinst
        refine ⟨true, ⟨if slot < s.matches_.length then
            s.matches_.set slot true else s.matches_,
            ⟨s.m.jobs, markKey s.m.visited
              (keyOf p.context.elems.length ip at_)⟩⟩, cnt + 1, 1, [],
          ?_, hlen', ?_, hmono, hcard, rfl, by simp, by simp, by omega⟩
        · simp only [stepGo, hmk, hinst]
          by_cases hs : slot < s.matches_.length <;> simp [hs]
        · by_cases hs : slot < s.matches_.length <;> simp [hs]
      | Split goto1 goto2 =>
        rw [hi] at hinst
        rw [hi] at hgotos
        simp only [instGotosOk, Bool.and_eq_true, decide_eq_true_eq] at hgotos
        obtain ⟨r, s', cnt', d2, nj2, hrun, hl2, hm2, hmo2, hc2, hj2, hw2,
          hn2, hcn2⟩ :=
          ih goto1 at_ ⟨s.matches_, ⟨⟨goto2, at_⟩ :: s.m.jobs,
            markKey s.m.visited (keyOf p.context.elems.length ip at_)⟩⟩
            (cnt + 1) hgotos.1 hat hlen' (by
              show capacity p + 1 ≤ (markedBelow (capacity p)
                (markKey s.m.visited
                  (keyOf p.context.elems.length ip at_))).card + fuel
              omega)
        refine ⟨r, s', cnt', d2 + 1, nj2 ++ [⟨goto2, at_⟩], ?_, hl2, hm2,
          fun j hj => hmo2 j (hmono j hj), (by
            have hc2a : (markedBelow (capacity p) s'.m.visited).card =
                (markedBelow (capacity p) (markKey s.m.visited
                  (keyOf p.context.elems.length ip at_))).card + d2 := hc2
            omega),
          ?_, ?_, ?_, by omega⟩
        · simp only [stepGo, hmk, hinst]
          exact hrun
        · rw [hj2]; simp
        · intro j hj
          rcases List.mem_append.mp hj with hj | hj
          · exact hw2 j hj
          · rcases List.mem_singleton.mp hj with rfl
            exact ⟨hgotos.2, hat⟩
        · simp only [List.length_append, List.length_singleton]
          omega
      | Zero goto zero =>
        rw [hi] at hinst
        rw [hi] at hgotos
        simp only [instGotosOk, decide_eq_true_eq] at hgotos
        cases hz : p.context.is_empty_match at_ zero with
        | true =>
          obtain ⟨r, s', cnt', d2, nj2, hrun, hl2, hm2, hmo2, hc2, hj2, hw2,
            hn2, hcn2⟩ :=
            ih goto at_ ⟨s.matches_, ⟨s.m.jobs,
              markKey s.m.visited (keyOf p.context.elems.length ip at_)⟩⟩
              (cnt + 1) hgotos hat hlen' (by
                show capacity p + 1 ≤ (markedBelow (capacity p)
                  (markKey s.m.visited
                    (keyOf p.context.elems.length ip at_))).card + fuel
                omega)
          refine ⟨r, s', cnt', d2 + 1, nj2, ?_, hl2, hm2,
            fun j hj => hmo2 j (hmono j hj), (by
            have hc2a : (markedBelow (capacity p) s'.m.visited).card =
                (markedBelow (capacity p) (markKey s.m.visited
                  (keyOf p.context.elems.length ip at_))).card + d2 := hc2
            omega),
            hj2, hw2, by omega, by omega⟩
          simp only [stepGo, hmk, hinst, hz]
          exact hrun
        | false =>
          refine ⟨false, ⟨s.matches_, ⟨s.m.jobs, markKey s.m.visited
              (keyOf p.context.elems.length ip at_)⟩⟩, cnt + 1, 1, [],
            ?_, hlen', rfl, hmono, hcard, rfl, by simp, by simp, by omega⟩
          simp only [stepGo, hmk, hinst, hz]
          rfl
      | One goto seq =>
        rw [hi] at hinst
        rw [hi] at hgotos
        simp only [instGotosOk, decide_eq_true_eq] at hgotos
        cases hc : p.context.elems.get? at_ with
        | none =>
          refine ⟨false, ⟨s.matches_, ⟨s.m.jobs, markKey s.m.visited
              (keyOf p.context.elems.length ip at_)⟩⟩, cnt + 1, 1, [],
            ?_, hlen', rfl, hmono, hcard, rfl, by simp, by simp, by omega⟩
          simp only [stepGo, hmk, hinst, hc]
        | some c =>
          have hat' : at_ + 1 ≤ p.context.elems.length := by
            have := (List.get?_eq_some.mp hc).1
            omega
          by_cases hsc : seq = c
          · obtain ⟨r, s', cnt', d2, nj2, hrun, hl2, hm2, hmo2, hc2, hj2, hw2,
              hn2, hcn2⟩ :=
              ih goto (at_ + 1) ⟨s.matches_, ⟨s.m.jobs,
                markKey s.m.visited (keyOf p.context.elems.length ip at_)⟩⟩
                (cnt + 1) hgotos hat' hlen' (by
                  show capacity p + 1 ≤ (markedBelow (capacity p)
                    (markKey s.m.visited
                      (keyOf p.context.elems.length ip at_))).card + fuel
                  omega)
            refine ⟨r, s', cnt', d2 + 1, nj2, ?_, hl2, hm2,
              fun j hj => hmo2 j (hmono j hj), (by
            have hc2a : (markedBelow (capacity p) s'.m.visited).card =
                (markedBelow (capacity p) (markKey s.m.visited
                  (keyOf p.context.elems.length ip at_))).card + d2 := hc2
            omega),
              hj2, hw2, by omega, by omega⟩
            simp only [stepGo, hmk, hinst, hc, hsc, if_pos]
            exact hrun
          · refine ⟨false, ⟨s.matches_, ⟨s.m.jobs, markKey s.m.visited
                (keyOf p.context.elems.length ip at_)⟩⟩, cnt + 1, 1, [],
              ?_, hlen', rfl, hmono, hcard, rfl, by simp, by simp, by omega⟩
            simp only [stepGo, hmk, hinst, hc, hsc]
            rfl
      | Interval goto interval =>
        rw [hi] at hinst
        rw [hi] at hgotos
        simp only [instGotosOk, decide_eq_true_eq] at hgotos
        cases hc : p.context.elems.get? at_ with
        | none =>
          refine ⟨false, ⟨s.matches_, ⟨s.m.jobs, markKey s.m.visited
              (keyOf p.context.elems.length ip at_)⟩⟩, cnt + 1, 1, [],
            ?_, hlen', rfl, hmono, hcard, rfl, by simp, by simp, by omega⟩
          simp only [stepGo, hmk, hinst, hc]
        | some c =>
          have hat' : at_ + 1 ≤ p.context.elems.length := by
            have := (List.get?_eq_some.mp hc).1
            omega
          cases hiv : interval.has c with
          | true =>
            obtain ⟨r, s', cnt', d2, nj2, hrun, hl2, hm2, hmo2, hc2, hj2, hw2,
              hn2, hcn2⟩ :=
              ih goto (at_ + 1) ⟨s.matches_, ⟨s.m.jobs,
                markKey s.m.visited (keyOf p.context.elems.length ip at_)⟩⟩
                (cnt + 1) hgotos hat' hlen' (by
                  show capacity p + 1 ≤ (markedBelow (capacity p)
                    (markKey s.m.visited
                      (keyOf p.context.elems.length ip at_))).card + fuel
                  omega)
            refine ⟨r, s', cnt', d2 + 1, nj2, ?_, hl2, hm2,
              fun j hj => hmo2 j (hmono j hj), (by
            have hc2a : (markedBelow (capacity p) s'.m.visited).card =
                (markedBelow (capacity p) (markKey s.m.visited
                  (keyOf p.context.elems.length ip at_))).card + d2 := hc2
            omega),
              hj2, hw2, by omega, by omega⟩
            simp only [stepGo, hmk, hinst, hc, hiv]
            exact hrun
          | false =>
            refine ⟨false, ⟨s.matches_, ⟨s.m.jobs, markKey s.m.visited
                (keyOf p.context.elems.length ip at_)⟩⟩, cnt + 1, 1, [],
              ?_, hlen', rfl, hmono, hcard, rfl, by simp, by simp, by omega⟩
            simp only [stepGo, hmk, hinst, hc, hiv]
            rfl

/-- The inductive specification of the `backtrack` while loop: with every
stacked job in contract, a `clear`-sized bitset, and fuel at least
`|jobs| + (capacity - marked) + 1`, the loop terminates; it marks `d` fresh
keys, never clears a bit, runs at most `2d + |jobs|` step-loop iterations,
and ends either with an immediate single-pattern match return or with the
job stack fully drained. -/
theorem backtrackGo_spec (p : Params) (hwf : p.prog.WF) :
    ∀ fuel (s : EState) matched cnt,
    (∀ j ∈ s.m.jobs, j.ip < p.prog.insts.length ∧
      j.at_ ≤ p.context.elems.length) →
    s.m.visited.length = visitedLen p →
    s.m.jobs.length +
        (capacity p - (markedBelow (capacity p) s.m.visited).card) + 1 ≤
      fuel →
    ∃ r s' cnt' d,
      backtrackGo p fuel s matched cnt = some (r, s', cnt') ∧
      s'.m.visited.length = visitedLen p ∧
      s'.matches_.length = s.matches_.length ∧
      (∀ j, testKey s.m.visited j = true → testKey s'.m.visited j = true) ∧
      (markedBelow (capacity p) s'.m.visited).card =
        (markedBelow (capacity p) s.m.visited).card + d ∧
      cnt' ≤ cnt + 2 * d + s.m.jobs.length ∧
      ((r = true ∧ p.prog.matches_.length = 1) ∨ s'.m.jobs = []) := by
  intro fuel
  induction fuel with
  | zero =>
    intro s matched cnt hjobs hlen hfuel
    exact absurd hfuel (by omega)
  | succ fuel ih =>
    intro s matched cnt hjobs hlen hfuel
    cases hj : s.m.jobs with
    | nil =>
      refine ⟨matched, s, cnt, 0, ?_, hlen, rfl, fun j hj => hj, by omega,
        by omega, Or.inr hj⟩
      simp only [backtrackGo, hj]
    | cons job rest =>
      have hcap := markedBelow_card_le (capacity p) s.m.visited
      have hjob := hjobs job (by rw [hj]; exact List.mem_cons_self ..)
      obtain ⟨r, s2, cnt2, d1, nj, hrun, hl1, hm1, hmo1, hc1, hj1, hw1,
        hn1, hcn1⟩ :=
        stepGo_spec p hwf (stepFuel p) job.ip job.at_
          { s with m := { s.m with jobs := rest } } cnt hjob.1 hjob.2 hlen
          (by
            show capacity p + 1 ≤
              (markedBelow (capacity p) s.m.visited).card + stepFuel p
            unfold stepFuel
            omega)
      have hm1a : s2.matches_.length = s.matches_.length := hm1
      have hmo1a : ∀ j, testKey s.m.visited j = true →
          testKey s2.m.visited j = true := hmo1
      have hc1a : (markedBelow (capacity p) s2.m.visited).card =
          (markedBelow (capacity p) s.m.visited).card + d1 := hc1
      have hj1a : s2.m.jobs = nj ++ rest := hj1
      have hcap2 := markedBelow_card_le (capacity p) s2.m.visited
      have hrest : s.m.jobs.length = rest.length + 1 := by rw [hj]; rfl
      cases r with
      | true =>
        by_cases hml : p.prog.matches_.length = 1
        · refine ⟨true, s2, cnt2, d1, ?_, hl1, hm1a, hmo1a, hc1a,
            by simp only [hj, List.length_cons]; omega, Or.inl ⟨rfl, hml⟩⟩
          simp only [backtrackGo, hj, hrun, hml]
          simp
        · obtain ⟨r', s', cnt', d2, hrun2, hl2, hm2, hmo2, hc2, hcn2, hend2⟩ :=
            ih s2 true cnt2 (by
                intro j hjm
                rw [hj1a] at hjm
                rcases List.mem_append.mp hjm with hjm | hjm
                · exact hw1 j hjm
                · exact hjobs j (by rw [hj]; exact List.mem_cons_of_mem _ hjm))
              hl1 (by
                rw [hj1a]
                simp only [hj, List.length_cons] at hfuel
                simp only [List.length_append]
                omega)
          refine ⟨r', s', cnt', d1 + d2, ?_, hl2, by omega,
            fun j hjm => hmo2 j (hmo1a j hjm), by omega, ?_, hend2⟩
          · simp only [backtrackGo, hj, hrun, hml]
            simp only [if_true, if_neg hml]
            exact hrun2
          · rw [hj1a] at hcn2
            simp only [List.length_append] at hcn2
            simp only [hj, List.length_cons]
            omega
      | false =>
        obtain ⟨r', s', cnt', d2, hrun2, hl2, hm2, hmo2, hc2, hcn2, hend2⟩ :=
          ih s2 matched cnt2 (by
              intro j hjm
              rw [hj1a] at hjm
              rcases List.mem_append.mp hjm with hjm | hjm
              · exact hw1 j hjm
              · exact hjobs j (by rw [hj]; exact List.mem_cons_of_mem _ hjm))
            hl1 (by
              rw [hj1a]
              simp only [hj, List.length_cons] at hfuel
              simp only [List.length_append]
              omega)
        refine ⟨r', s', cnt', d1 + d2, ?_, hl2, by omega,
          fun j hjm => hmo2 j (hmo1a j hjm), by omega, ?_, hend2⟩
        · simp only [backtrackGo, hj, hrun]
          simp only [Bool.false_eq_true, if_false]
          exact hrun2
        · rw [hj1a] at hcn2
          simp only [List.length_append] at hcn2
          simp only [hj, List.length_cons]
          omega

/-- C10 witness: the `Match`-dispatch facts applied to the concrete
`Match(5)` program at `(ip, at) = (0, 0)` with a freshly cleared one-word
bitset. -/
theorem step_match_oob_witness :
    (pMatch5.prog.insts.get? 0 = some (Inst.Match 5) ∧
      has_visited 0 [0] 0 0 = some (false, [1])) ∧
    stepGo pMatch5 1 0 0 ⟨[false, false], ⟨[], [0]⟩⟩ 0 =
      some (true, ⟨[false, false], ⟨[], [1]⟩⟩, 1) := by
  refine ⟨⟨by decide, by decide⟩, ?_⟩
  have h := (step_match_oob pMatch5 0 0 0 0 5 ⟨[false, false], ⟨[], [0]⟩⟩ [1]
    (by decide) (by decide)).2.1 (by decide)
  exact h

/-- No key is marked right after `clear`. -/
theorem markedBelow_replicate_card (U n : Nat) :
    (markedBelow U (List.replicate n 0)).card = 0 := by
  rw [Finset.card_eq_zero]
  apply Finset.filter_eq_empty_iff.mpr
  intro k _
  simp [testKey_replicate]

/-- `has_visited` never clears a visited bit, whatever its arguments. -/
theorem has_visited_mono (ctxLen : Nat) (visited v' : List Nat)
    (ip at_ : Nat) (b : Bool)
    (h : has_visited ctxLen visited ip at_ = some (b, v')) :
    ∀ j, testKey visited j = true → testKey v' j = true := by
  intro j hj
  unfold has_visited at h
  simp only [usize_to_u32_mask] at h
  cases hw : visited[(ip * (ctxLen + 1) + at_) / BIT_SIZE]? with
  | none => simp [List.get?_eq_getElem?, hw] at h
  | some w =>
    simp only [List.get?_eq_getElem?, hw] at h
    by_cases hz : w &&& 1 <<< ((ip * (ctxLen + 1) + at_) &&& (BIT_SIZE - 1)) = 0
    · rw [if_pos hz, Option.some.injEq, Prod.mk.injEq] at h
      obtain ⟨-, hv⟩ := h
      subst hv
      unfold testKey at hj ⊢
      by_cases hdiv : j / BIT_SIZE = (ip * (ctxLen + 1) + at_) / BIT_SIZE
      · rw [hdiv]
        have hlt : (ip * (ctxLen + 1) + at_) / BIT_SIZE < visited.length := by
          by_contra hge
          rw [List.getElem?_eq_none (by omega)] at hw
          cases hw
        simp only [List.getD_eq_getElem?_getD, List.getElem?_set_self hlt,
          Option.getD_some]
        rw [Nat.testBit_lor]
        rw [hdiv] at hj
        simp only [List.getD_eq_getElem?_getD, hw, Option.getD_some] at hj
        simp [hj]
      · simp only [List.getD_eq_getElem?_getD,
          List.getElem?_set_ne (fun hh => hdiv hh.symm)]
        simp only [List.getD_eq_getElem?_getD] at hj
        exact hj
    · rw [if_neg hz, Option.some.injEq, Prod.mk.injEq] at h
      obtain ⟨-, hv⟩ := h
      subst hv
      exact hj

/-- The step loop never clears a visited bit, whatever its arguments (no
compiler contract needed): the never-cleared half of the linear-time
invariant. -/
theorem stepGo_visited_mono (p : Params) :
    ∀ fuel ip at_ (s : EState) cnt r s' cnt',
    stepGo p fuel ip at_ s cnt = some (r, s', cnt') →
    ∀ j, testKey s.m.visited j = true → testKey s'.m.visited j = true := by
  intro fuel
  induction fuel with
  | zero => intro ip at_ s cnt r s' cnt' h; cases h
  | succ fuel ih =>
    intro ip at_ s cnt r s' cnt' h j hj
    simp only [stepGo] at h
    cases hv : has_visited p.context.elems.length s.m.visited ip at_ with
    | none =>
      simp only [hv] at h
      exact Option.noConfusion h
    | some bv =>
      obtain ⟨b, v'⟩ := bv
      have hmono := has_visited_mono _ _ _ _ _ _ hv j hj
      simp only [hv] at h
      cases b with
      | true =>
        rw [Option.some.injEq, Prod.mk.injEq, Prod.mk.injEq] at h
        obtain ⟨-, hs, -⟩ := h
        subst hs
        exact hj
      | false =>
        cases hg : p.prog.insts.get? ip with
        | none =>
          simp only [hg] at h
          exact Option.noConfusion h
        | some inst =>
          simp only [hg] at h
          cases inst with
          | Match slot =>
            simp only at h
            rw [Option.some.injEq, Prod.mk.injEq, Prod.mk.injEq] at h
            obtain ⟨-, hs, -⟩ := h
            subst hs
            by_cases hsl : slot < s.matches_.length <;> simp [hsl] <;>
              exact hmono
          | Split goto1 goto2 =>
            simp only at h
            exact ih _ _ _ _ _ _ _ h j hmono
          | Zero goto zero =>
            simp only at h
            by_cases hz : p.context.is_empty_match at_ zero
            · rw [if_pos hz] at h
              exact ih _ _ _ _ _ _ _ h j hmono
            · rw [if_neg hz, Option.some.injEq, Prod.mk.injEq,
                Prod.mk.injEq] at h
              obtain ⟨-, hs, -⟩ := h
              subst hs
              exact hmono
          | One goto seq =>
            simp only at h
            cases hc : p.context.elems.get? at_ with
            | none =>
              simp only [hc, Option.some.injEq, Prod.mk.injEq] at h
              obtain ⟨-, hs, -⟩ := h
              subst hs
              exact hmono
            | some c =>
              simp only [hc] at h
              by_cases hsc : seq = c
              · rw [if_pos hsc] at h
                exact ih _ _ _ _ _ _ _ h j hmono
              · rw [if_neg hsc, Option.some.injEq, Prod.mk.injEq,
                  Prod.mk.injEq] at h
                obtain ⟨-, hs, -⟩ := h
                subst hs
                exact hmono
          | Interval goto interval =>
            simp only at h
            cases hc : p.context.elems.get? at_ with
            | none =>
              simp only [hc, Option.some.injEq, Prod.mk.injEq] at h
              obtain ⟨-, hs, -⟩ := h
              subst hs
              exact hmono
            | some c =>
              simp only [hc] at h
              by_cases hiv : interval.has c
              · rw [if_pos hiv] at h
                exact ih _ _ _ _ _ _ _ h j hmono
              · rw [if_neg hiv, Option.some.injEq, Prod.mk.injEq,
                  Prod.mk.injEq] at h
                obtain ⟨-, hs, -⟩ := h
                subst hs
                exact hmono

/-- Specification of one `backtrack` call from an in-contract start
position with an empty job stack and a `clear`-sized bitset: it terminates,
marks `d` fresh keys, never clears a bit, runs at most `2d + 1` step-loop
iterations, and either returns an immediate single-pattern match or drains
its stack. -/
theorem backtrack_spec (p : Params) (hwf : p.prog.WF) (at_ : Nat)
    (s : EState) (cnt : Nat)
    (hat : at_ ≤ p.context.elems.length)
    (hjobs : s.m.jobs = [])
    (hlen : s.m.visited.length = visitedLen p) :
    ∃ r s' cnt' d,
      backtrack p at_ s cnt = some (r, s', cnt') ∧
      s'.m.visited.length = visitedLen p ∧
      s'.matches_.length = s.matches_.length ∧
      (∀ j, testKey s.m.visited j = true → testKey s'.m.visited j = true) ∧
      (markedBelow (capacity p) s'.m.visited).card =
        (markedBelow (capacity p) s.m.visited).card + d ∧
      cnt' ≤ cnt + 2 * d + 1 ∧
      ((r = true ∧ p.prog.matches_.length = 1) ∨ s'.m.jobs = []) := by
  have hcap := markedBelow_card_le (capacity p) s.m.visited
  obtain ⟨r, s', cnt', d, hrun, hl, hm, hmo, hc, hcn, hend⟩ :=
    backtrackGo_spec p hwf (loopFuel p)
      { s with m := { s.m with jobs := ⟨0, at_⟩ :: s.m.jobs } } false cnt
      (by
        intro j hj
        have hj' : j ∈ (⟨0, at_⟩ :: s.m.jobs : List Job) := hj
        rw [hjobs] at hj'
        rcases List.mem_singleton.mp hj' with rfl
        exact ⟨hwf.1, hat⟩)
      hlen
      (by
        show ((⟨0, at_⟩ : Job) :: s.m.jobs).length +
          (capacity p - (markedBelow (capacity p) s.m.visited).card) + 1 ≤
          loopFuel p
        rw [hjobs]
        unfold loopFuel
        simp only [List.length_cons, List.length_nil]
        omega)
  have hma : s'.matches_.length = s.matches_.length := hm
  have hmoa : ∀ j, testKey s.m.visited j = true →
      testKey s'.m.visited j = true := hmo
  have hca : (markedBelow (capacity p) s'.m.visited).card =
      (markedBelow (capacity p) s.m.visited).card + d := hc
  have hcna : cnt' ≤ cnt + 2 * d +
      ((⟨0, at_⟩ : Job) :: s.m.jobs).length := hcn
  rw [hjobs] at hcna
  simp only [List.length_cons, List.length_nil] at hcna
  refine ⟨r, s', cnt', d, ?_, hl, hma, hmoa, hca, hcna, hend⟩
  show backtrackGo p (loopFuel p)
    { s with m := { s.m with jobs := ⟨0, at_⟩ :: s.m.jobs } } false cnt =
    some (r, s', cnt')
  exact hrun

/-- Specification of the unanchored scan loop of `exec_`: from an
in-contract position with a monotone prefix oracle, an empty job stack and
a `clear`-sized bitset, the loop terminates, marks `d` fresh keys in total,
and runs at most `2d + (end + 1 - at) + 1` step-loop iterations. -/
theorem execGo_spec (p : Params) (hwf : p.prog.WF) (hpfx : PfxMono p) :
    ∀ fuel (s : EState) at_ end_ matched cnt tr,
    at_ ≤ p.context.elems.length →
    end_ ≤ p.context.elems.length →
    s.m.jobs = [] →
    s.m.visited.length = visitedLen p →
    end_ + 2 ≤ fuel + at_ →
    0 < fuel →
    ∃ r s' cnt' tr' d,
      execGo p fuel s at_ end_ matched cnt tr = some (r, s', cnt', tr') ∧
      s'.m.visited.length = visitedLen p ∧
      s'.matches_.length = s.matches_.length ∧
      (markedBelow (capacity p) s'.m.visited).card =
        (markedBelow (capacity p) s.m.visited).card + d ∧
      cnt' ≤ cnt + 2 * d + (end_ + 1 - at_) + 1 := by
  intro fuel
  induction fuel with
  | zero =>
    intro s at_ end_ matched cnt tr _ _ _ _ _ hpos
    exact absurd hpos (by omega)
  | succ fuel ih =>
    intro s at_ end_ matched cnt tr hat hend hjobs hlen hfuel _
    cases hpre : (if p.prog.prefixes.isEmptyLS then some at_
        else p.context.prefix_at p.prog.prefixes at_) with
    | none =>
      refine ⟨matched, s, cnt, tr, 0, ?_, hlen, rfl, by omega, by omega⟩
      simp only [execGo, hpre]
    | some at' =>
      have hat' : at_ ≤ at' ∧ at' ≤ p.context.elems.length := by
        by_cases hemp : p.prog.prefixes.isEmptyLS
        · rw [if_pos hemp, Option.some.injEq] at hpre
          subst hpre
          exact ⟨le_refl _, hat⟩
        · rw [if_neg hemp] at hpre
          exact hpfx _ _ _ hpre
      obtain ⟨r, s1, cnt1, d1, hbrun, hl1, hm1, hmo1, hc1, hcn1, hend1⟩ :=
        backtrack_spec p hwf at' s cnt hat'.2 hjobs hlen
      cases hguard : (r || matched) && decide (p.prog.matches_.length = 1) with
      | true =>
        refine ⟨true, s1, cnt1, tr ++ [(at', r)], d1, ?_, hl1, hm1, hc1,
          by omega⟩
        simp only [execGo, hpre, hbrun, hguard]
        simp
      | false =>
        by_cases hge : at' ≥ end_
        · refine ⟨r || matched, s1, cnt1, tr ++ [(at', r)], d1, ?_, hl1, hm1,
            hc1, by omega⟩
          simp only [execGo, hpre, hbrun, hguard]
          simp [hge]
        · have hjobs1 : s1.m.jobs = [] := by
            rcases hend1 with ⟨hr, hml⟩ | hj1
            · subst hr
              simp [hml] at hguard
            · exact hj1
          obtain ⟨r2, s2, cnt2, tr2, d2, hrun2, hl2, hm2, hc2, hcn2⟩ :=
            ih s1 (at' + 1) end_ (r || matched) cnt1 (tr ++ [(at', r)])
              (by omega) hend hjobs1 hl1 (by omega) (by omega)
          refine ⟨r2, s2, cnt2, tr2, d1 + d2, ?_, hl2, by omega, by omega,
            by omega⟩
          simp only [execGo, hpre, hbrun, hguard]
          simp only [Bool.false_eq_true, if_false, ge_iff_le,
            decide_eq_true_eq]
          rw [if_neg hge]
          exact hrun2

/-- C1 counterexample: for the one-instruction program `Split(0, 0)`
(`m = 1`) over the empty input (`n = 0`), a single anchored top-level
invocation of the engine runs 3 step-loop iterations, exceeding
`m * (n + 1) = 1`; so the claimed bound on the total number of step-loop
iterations is false (iterations that fail the visited check still count). -/
theorem step_iterations_exceed_bound :
    (exec_ pLoop ⟨[false], Cache.new⟩ 0 0).map (fun r => r.2.2.1) = some 3 ∧
      pLoop.prog.insts.length * (pLoop.context.elems.length + 1) = 1 := by
  decide

/-- C1 amended: (a) once `has_visited` marks a pair, every later step at
that pair fails immediately, in a single loop iteration, leaving the state
unchanged; (b) no visited bit is ever cleared by the step loop before the
next top-level `clear`; (c) under the compiler contract and a monotone
prefix oracle, a top-level invocation of the engine terminates, visits
(marks) each `(ip, at)` pair at most once — at most `m * (n + 1)` marked
pairs in total — and its total number of step-loop iterations is at most
`2 * m * (n + 1) + end + 2` (not `m * (n + 1)`: iterations that fail the
visited check also count), so `backtrack` terminates. -/
theorem engine_linear_bound :
    (∀ (p : Params) (fuel ip at_ cnt : Nat) (s : EState),
      testKey s.m.visited (keyOf p.context.elems.length ip at_) = true →
      keyOf p.context.elems.length ip at_ / BIT_SIZE < s.m.visited.length →
      stepGo p (fuel + 1) ip at_ s cnt = some (false, s, cnt + 1)) ∧
    (∀ (p : Params) (fuel ip at_ cnt cnt' : Nat) (s s' : EState) (r : Bool),
      stepGo p fuel ip at_ s cnt = some (r, s', cnt') →
      ∀ k, testKey s.m.visited k = true → testKey s'.m.visited k = true) ∧
    (∀ (p : Params) (s : EState) (start end_ : Nat),
      p.prog.WF → PfxMono p → start ≤ end_ →
      end_ ≤ p.context.elems.length →
      ∃ r s' cnt tr,
        exec_ p s start end_ = some (r, s', cnt, tr) ∧
        (markedBelow (capacity p) s'.m.visited).card ≤ capacity p ∧
        cnt ≤ 2 * capacity p + end_ + 2) := by
  refine ⟨?_, ?_, ?_⟩
  · intro p fuel ip at_ cnt s htk hk1
    simp only [stepGo, has_visited_marked _ _ _ _ hk1 htk]
  · intro p fuel ip at_ cnt cnt' s s' r h
    exact stepGo_visited_mono p fuel ip at_ s cnt r s' cnt' h
  · intro p s start end_ hwf hpfx hse hen
    have hstart : start ≤ p.context.elems.length := le_trans hse hen
    have hcl := clear_eq_replicate p s.m
    have hlenr : (List.replicate (visitedLen p) (0 : Nat)).length =
        visitedLen p := List.length_replicate ..
    by_cases hanch : p.prog.is_anchored_start
    · obtain ⟨r, s', cnt', d, hbrun, hl, hm, hmo, hc, hcn, hend1⟩ :=
        backtrack_spec p hwf start
          { s with m := (⟨[], List.replicate (visitedLen p) 0⟩ : Cache) } 0
          hstart rfl hlenr
      have hc' : (markedBelow (capacity p) s'.m.visited).card =
          (markedBelow (capacity p)
            (List.replicate (visitedLen p) 0)).card + d := hc
      rw [markedBelow_replicate_card] at hc'
      have hcap' := markedBelow_card_le (capacity p) s'.m.visited
      refine ⟨r, s', cnt', [(start, r)], ?_, hcap', by omega⟩
      simp only [exec_, hcl, if_pos hanch]
      rw [hbrun]
      rfl
    · obtain ⟨r, s', cnt', tr', d, hrun, hl, hm, hc, hcn⟩ :=
        execGo_spec p hwf hpfx (execFuel end_)
          { s with m := (⟨[], List.replicate (visitedLen p) 0⟩ : Cache) }
          start end_ false 0 [] hstart hen rfl hlenr
          (by unfold execFuel; omega) (by unfold execFuel; omega)
      have hc' : (markedBelow (capacity p) s'.m.visited).card =
          (markedBelow (capacity p)
            (List.replicate (visitedLen p) 0)).card + d := hc
      rw [markedBelow_replicate_card] at hc'
      have hcap' := markedBelow_card_le (capacity p) s'.m.visited
      refine ⟨r, s', cnt', tr', ?_, hcap', by omega⟩
      simp only [exec_, hcl, if_neg hanch]
      exact hrun

/-- C1 amended, witness: the three parts applied to the `a|b` program over
`"xba"`: an already-visited step at `(0, 0)` fails in one iteration; the
full unanchored invocation terminates within the bounds. -/
theorem engine_linear_bound_witness :
    (testKey [1] (keyOf 3 0 0) = true ∧
      keyOf 3 0 0 / BIT_SIZE < ([1] : List Nat).length ∧
      stepGo pAB 1 0 0 ⟨[false], ⟨[], [1]⟩⟩ 5 =
        some (false, ⟨[false], ⟨[], [1]⟩⟩, 6)) ∧
    (pAB.prog.WF ∧ (3 : Nat) ≤ pAB.context.elems.length ∧
      ∃ r s' cnt tr,
        exec_ pAB ⟨[false], Cache.new⟩ 0 3 = some (r, s', cnt, tr) ∧
        (markedBelow (capacity pAB) s'.m.visited).card ≤ capacity pAB ∧
        cnt ≤ 2 * capacity pAB + 3 + 2) := by
  have hpfx : PfxMono pAB := fun ls a a' h => Option.noConfusion h
  have hwf : pAB.prog.WF := by unfold Program.WF; decide
  refine ⟨⟨by decide, by decide, ?_⟩, hwf, by decide, ?_⟩
  · exact engine_linear_bound.1 pAB 0 0 0 5 ⟨[false], ⟨[], [1]⟩⟩ (by decide)
      (by decide)
  · exact engine_linear_bound.2.2 pAB ⟨[false], Cache.new⟩ 0 3 hwf
      hpfx (by decide) (by decide)

/-! ### Single-pattern short-circuit (trace lemmas) -/

/-- The scan loop of a single-pattern search is short-circuit correct:
started with accumulator `matched = false`, whenever it returns, the trace
extension it appends consists of failed `backtrack` attempts followed by at
most one final successful attempt — and ends with a successful attempt iff
the overall result is true.  In particular no `backtrack` is attempted at
any position after the first success. -/
theorem execGo_trace_single (p : Params) (hml : p.prog.matches_.length = 1) :
    ∀ fuel (s : EState) at_ end_ cnt tr r s' cnt' tr',
    execGo p fuel s at_ end_ false cnt tr = some (r, s', cnt', tr') →
    ∃ ext, tr' = tr ++ ext ∧ OkTrace r ext := by
  intro fuel
  induction fuel with
  | zero => intro s at_ end_ cnt tr r s' cnt' tr' h; cases h
  | succ fuel ih =>
    intro s at_ end_ cnt tr r s' cnt' tr' h
    simp only [execGo] at h
    cases hpre : (if p.prog.prefixes.isEmptyLS then some at_
        else p.context.prefix_at p.prog.prefixes at_) with
    | none =>
      simp only [hpre] at h
      rw [Option.some.injEq, Prod.mk.injEq, Prod.mk.injEq, Prod.mk.injEq] at h
      obtain ⟨hr, -, -, htr⟩ := h
      subst hr; subst htr
      exact ⟨[], by simp, fun x hx => absurd hx (List.not_mem_nil x)⟩
    | some at' =>
      simp only [hpre] at h
      cases hb : backtrack p at' s cnt with
      | none =>
        simp only [hb] at h
        exact Option.noConfusion h
      | some rsc =>
        obtain ⟨r1, s1, cnt1⟩ := rsc
        simp only [hb] at h
        cases r1 with
        | true =>
          have hg : ((true || false) &&
              decide (p.prog.matches_.length = 1)) = true := by simp [hml]
          rw [hg, if_pos rfl] at h
          rw [Option.some.injEq, Prod.mk.injEq, Prod.mk.injEq,
            Prod.mk.injEq] at h
          obtain ⟨hr, -, -, htr⟩ := h
          subst hr; subst htr
          refine ⟨[(at', true)], rfl, ⟨[], at', rfl, ?_⟩⟩
          intro x hx
          exact absurd hx (List.not_mem_nil x)
        | false =>
          have hg : ((false || false) &&
              decide (p.prog.matches_.length = 1)) = false := by simp
          rw [hg, if_neg Bool.false_ne_true] at h
          by_cases hge : at' ≥ end_
          · rw [if_pos (by simpa using hge)] at h
            rw [Option.some.injEq, Prod.mk.injEq, Prod.mk.injEq,
              Prod.mk.injEq] at h
            obtain ⟨hr, -, -, htr⟩ := h
            subst hr; subst htr
            refine ⟨[(at', false)], rfl, ?_⟩
            intro x hx
            rcases List.mem_singleton.mp hx with rfl
            rfl
          · rw [if_neg (by simpa using hge)] at h
            obtain ⟨ext1, htr1, hok⟩ := ih s1 (at' + 1) end_ cnt1
              (tr ++ [(at', false)]) r s' cnt' tr' h
            refine ⟨(at', false) :: ext1, by simp [htr1], ?_⟩
            cases r with
            | true =>
              obtain ⟨pre, q, hext, hpre'⟩ := hok
              refine ⟨(at', false) :: pre, q, by simp [hext], ?_⟩
              intro x hx
              rcases List.mem_cons.mp hx with rfl | hx
              · rfl
              · exact hpre' x hx
            | false =>
              intro x hx
              rcases List.mem_cons.mp hx with rfl | hx
              · rfl
              · exact hok x hx

/-- C4: for a single-pattern program, (i) once `exec_`'s unanchored scan
finds a match at some start position it returns true immediately and never
attempts a `backtrack` from any later start position — the instrumentation
trace of attempted positions consists of failures followed by at most one
final success, ending in a success iff the result is true; (ii) within one
`backtrack` call, a popped job whose `step` signals a match causes an
immediate `true` return with the state exactly as `step` left it — all
remaining stack entries abandoned unprocessed. -/
theorem single_pattern_short_circuit :
    (∀ (p : Params) (s : EState) (start end_ : Nat) (r : Bool) (s' : EState)
        (cnt : Nat) (tr : List (Nat × Bool)),
      p.prog.matches_.length = 1 →
      exec_ p s start end_ = some (r, s', cnt, tr) →
      OkTrace r tr) ∧
    (∀ (p : Params) (s : EState) (fuel cnt : Nat) (job : Job)
        (rest : List Job) (matched : Bool) (s' : EState) (cnt' : Nat),
      p.prog.matches_.length = 1 →
      s.m.jobs = job :: rest →
      stepGo p (stepFuel p) job.ip job.at_
        { s with m := { s.m with jobs := rest } } cnt =
        some (true, s', cnt') →
      backtrackGo p (fuel + 1) s matched cnt = some (true, s', cnt')) := by
  constructor
  · intro p s start end_ r s' cnt tr hml h
    simp only [exec_] at h
    by_cases hanch : p.prog.is_anchored_start
    · rw [if_pos hanch] at h
      cases hb : backtrack p start { s with m := clear p s.m } 0 with
      | none =>
        rw [hb] at h
        exact Option.noConfusion h
      | some rsc =>
        obtain ⟨r1, s1, cnt1⟩ := rsc
        rw [hb] at h
        simp only [Option.map_some'] at h
        rw [Option.some.injEq, Prod.mk.injEq, Prod.mk.injEq,
          Prod.mk.injEq] at h
        obtain ⟨hr, -, -, htr⟩ := h
        subst hr; subst htr
        cases r1 with
        | true =>
          exact ⟨[], start, rfl, fun x hx => absurd hx (List.not_mem_nil x)⟩
        | false =>
          intro x hx
          rcases List.mem_singleton.mp hx with rfl
          rfl
    · rw [if_neg hanch] at h
      obtain ⟨ext, htr, hok⟩ := execGo_trace_single p hml _ _ _ _ _ _ _ _ _ _ h
      rw [htr]
      simpa using hok
  · intro p s fuel cnt job rest matched s' cnt' hml hjobs hstep
    simp [backtrackGo, hjobs, hstep, hml]

/-- C4 witness: part (i) on the anchored `Split(0,0)` program (result
false, one failed attempt traced) and part (ii) on the `a|b` program: a
stack holding the jobs `(2, 0)` (the `Match` instruction) and `(1, 0)`
returns true immediately after the first job's step, leaving `(1, 0)`
abandoned on the stack. -/
theorem single_pattern_short_circuit_witness :
    (pLoop.prog.matches_.length = 1 ∧
      exec_ pLoop ⟨[false], Cache.new⟩ 0 0 =
        some (false, ⟨[false], ⟨[], [1]⟩⟩, 3, [(0, false)]) ∧
      OkTrace false [(0, false)]) ∧
    (pAB.prog.matches_.length = 1 ∧
      stepGo pAB (stepFuel pAB) 2 0 ⟨[false], ⟨[⟨1, 0⟩], [0]⟩⟩ 0 =
        some (true, ⟨[true], ⟨[⟨1, 0⟩], [256]⟩⟩, 1) ∧
      backtrackGo pAB 3 ⟨[false], ⟨[⟨2, 0⟩, ⟨1, 0⟩], [0]⟩⟩ false 0 =
        some (true, ⟨[true], ⟨[⟨1, 0⟩], [256]⟩⟩, 1)) := by
  refine ⟨⟨by decide, by decide, ?_⟩, by decide, by decide, ?_⟩
  · exact single_pattern_short_circuit.1 pLoop ⟨[false], Cache.new⟩ 0 0
      false ⟨[false], ⟨[], [1]⟩⟩ 3 [(0, false)] (by decide) (by decide)
  · exact single_pattern_short_circuit.2 pAB
      ⟨[false], ⟨[⟨2, 0⟩, ⟨1, 0⟩], [0]⟩⟩ 2 0 ⟨2, 0⟩ [⟨1, 0⟩] false
      ⟨[true], ⟨[⟨1, 0⟩], [256]⟩⟩ 1 (by decide) (by decide) (by decide)

/-! ### Buffer parametricity: the engine's control never reads the output
buffer's contents, only its length, and only ever writes `true`. -/

/-- `wrel` is reflexive on any two buffers. -/
theorem wrel_refl (b1 b2 : List Bool) : wrel b1 b1 b2 b2 :=
  fun _ => Or.inl ⟨rfl, rfl⟩

/-- `wrel` composes along sequential runs. -/
theorem wrel_comp (a a' a'' b b' b'' : List Bool)
    (h1 : wrel a a' b b') (h2 : wrel a' a'' b' b'') : wrel a a'' b b'' := by
  intro i
  rcases h2 i with ⟨h2a, h2b⟩ | ⟨h2a, h2b⟩
  · rcases h1 i with ⟨h1a, h1b⟩ | ⟨h1a, h1b⟩
    · exact Or.inl ⟨h2a.trans h1a, h2b.trans h1b⟩
    · exact Or.inr ⟨h2a.trans h1a, h2b.trans h1b⟩
  · exact Or.inr ⟨h2a, h2b⟩

/-- A same-slot `true`-write into same-length buffers is a `wrel`. -/
theorem wrel_set (b1 b2 : List Bool) (slot : Nat)
    (hlen : b1.length = b2.length) :
    wrel b1 (if slot < b1.length then b1.set slot true else b1)
      b2 (if slot < b2.length then b2.set slot true else b2) := by
  intro i
  by_cases hs : slot < b1.length
  · rw [if_pos hs, if_pos (hlen ▸ hs)]
    by_cases hi : i = slot
    · subst hi
      refine Or.inr ⟨?_, ?_⟩
      · rw [List.get?_eq_getElem?, List.getElem?_set_self hs]
      · rw [List.get?_eq_getElem?, List.getElem?_set_self (hlen ▸ hs)]
    · refine Or.inl ⟨?_, ?_⟩
      · rw [List.get?_eq_getElem?, List.get?_eq_getElem?,
          List.getElem?_set_ne (fun hh => hi hh.symm)]
      · rw [List.get?_eq_getElem?, List.get?_eq_getElem?,
          List.getElem?_set_ne (fun hh => hi hh.symm)]
  · rw [if_neg hs, if_neg (hlen ▸ hs)]
    exact Or.inl ⟨rfl, rfl⟩

/-- The step loop is parametric in the output buffer's contents: from two
states that differ only in same-length buffers it takes the same control
path (same result, same job stack, same bitset, same iteration counter)
and performs the same `true`-writes. -/
theorem stepGo_buffer_param (p : Params) :
    ∀ fuel ip at_ (jobs : List Job) (visited : List Nat)
      (b1 b2 : List Bool) cnt,
    b1.length = b2.length →
    (stepGo p fuel ip at_ ⟨b1, ⟨jobs, visited⟩⟩ cnt = none ∧
     stepGo p fuel ip at_ ⟨b2, ⟨jobs, visited⟩⟩ cnt = none) ∨
    (∃ r jobs' visited' cnt' b1' b2',
      stepGo p fuel ip at_ ⟨b1, ⟨jobs, visited⟩⟩ cnt =
        some (r, ⟨b1', ⟨jobs', visited'⟩⟩, cnt') ∧
      stepGo p fuel ip at_ ⟨b2, ⟨jobs, visited⟩⟩ cnt =
        some (r, ⟨b2', ⟨jobs', visited'⟩⟩, cnt') ∧
      b1'.length = b1.length ∧ b2'.length = b2.length ∧
      wrel b1 b1' b2 b2') := by
  intro fuel
  induction fuel with
  | zero => intro ip at_ jobs visited b1 b2 cnt _; exact Or.inl ⟨rfl, rfl⟩
  | succ fuel ih =>
    intro ip at_ jobs visited b1 b2 cnt hlen
    cases hv : has_visited p.context.elems.length visited ip at_ with
    | none =>
      refine Or.inl ⟨?_, ?_⟩ <;> simp only [stepGo, hv]
    | some bv =>
      obtain ⟨b, v'⟩ := bv
      cases b with
      | true =>
        refine Or.inr ⟨false, jobs, visited, cnt + 1, b1, b2, ?_, ?_,
          rfl, rfl, wrel_refl b1 b2⟩ <;> simp only [stepGo, hv]
      | false =>
        cases hg : p.prog.insts.get? ip with
        | none =>
          refine Or.inl ⟨?_, ?_⟩ <;> simp only [stepGo, hv, hg]
        | some inst =>
          cases inst with
          | Match slot =>
            refine Or.inr ⟨true, jobs, v', cnt + 1,
              (if slot < b1.length then b1.set slot true else b1),
              (if slot < b2.length then b2.set slot true else b2),
              ?_, ?_, ?_, ?_, wrel_set b1 b2 slot hlen⟩
            · simp only [stepGo, hv, hg]
              by_cases hs : slot < b1.length <;> simp [hs]
            · simp only [stepGo, hv, hg]
              by_cases hs : slot < b2.length <;> simp [hs]
            · by_cases hs : slot < b1.length <;> simp [hs]
            · by_cases hs : slot < b2.length <;> simp [hs]
          | Split goto1 goto2 =>
            rcases ih goto1 at_ (⟨goto2, at_⟩ :: jobs) v' b1 b2 (cnt + 1)
                hlen with ⟨h1, h2⟩ | ⟨r, jobs', visited', cnt', b1', b2',
                  h1, h2, hl1, hl2, hw⟩
            · refine Or.inl ⟨?_, ?_⟩ <;> simp only [stepGo, hv, hg]
              · exact h1
              · exact h2
            · refine Or.inr ⟨r, jobs', visited', cnt', b1', b2', ?_, ?_,
                hl1, hl2, hw⟩ <;> simp only [stepGo, hv, hg]
              · exact h1
              · exact h2
          | Zero goto zero =>
            by_cases hz : p.context.is_empty_match at_ zero
            · rcases ih goto at_ jobs v' b1 b2 (cnt + 1) hlen with
                ⟨h1, h2⟩ | ⟨r, jobs', visited', cnt', b1', b2',
                  h1, h2, hl1, hl2, hw⟩
              · refine Or.inl ⟨?_, ?_⟩ <;>
                  simp only [stepGo, hv, hg] <;> rw [if_pos hz]
                · exact h1
                · exact h2
              · refine Or.inr ⟨r, jobs', visited', cnt', b1', b2', ?_, ?_,
                  hl1, hl2, hw⟩ <;>
                  simp only [stepGo, hv, hg] <;> rw [if_pos hz]
                · exact h1
                · exact h2
            · refine Or.inr ⟨false, jobs, v', cnt + 1, b1, b2, ?_, ?_,
                rfl, rfl, wrel_refl b1 b2⟩ <;>
                simp only [stepGo, hv, hg] <;> rw [if_neg hz]
          | One goto seq =>
            cases hc : p.context.elems.get? at_ with
            | none =>
              refine Or.inr ⟨false, jobs, v', cnt + 1, b1, b2, ?_, ?_,
                rfl, rfl, wrel_refl b1 b2⟩ <;> simp only [stepGo, hv, hg, hc]
            | some c =>
              by_cases hsc : seq = c
              · rcases ih goto (at_ + 1) jobs v' b1 b2 (cnt + 1) hlen with
                  ⟨h1, h2⟩ | ⟨r, jobs', visited', cnt', b1', b2',
                    h1, h2, hl1, hl2, hw⟩
                · refine Or.inl ⟨?_, ?_⟩ <;>
                    simp only [stepGo, hv, hg, hc] <;> rw [if_pos hsc]
                  · exact h1
                  · exact h2
                · refine Or.inr ⟨r, jobs', visited', cnt', b1', b2', ?_, ?_,
                    hl1, hl2, hw⟩ <;>
                    simp only [stepGo, hv, hg, hc] <;> rw [if_pos hsc]
                  · exact h1
                  · exact h2
              · refine Or.inr ⟨false, jobs, v', cnt + 1, b1, b2, ?_, ?_,
                  rfl, rfl, wrel_refl b1 b2⟩ <;>
                  simp only [stepGo, hv, hg, hc] <;> rw [if_neg hsc]
          | Interval goto interval =>
            cases hc : p.context.elems.get? at_ with
            | none =>
              refine Or.inr ⟨false, jobs, v', cnt + 1, b1, b2, ?_, ?_,
                rfl, rfl, wrel_refl b1 b2⟩ <;> simp only [stepGo, hv, hg, hc]
            | some c =>
              by_cases hiv : interval.has c
              · rcases ih goto (at_ + 1) jobs v' b1 b2 (cnt + 1) hlen with
                  ⟨h1, h2⟩ | ⟨r, jobs', visited', cnt', b1', b2',
                    h1, h2, hl1, hl2, hw⟩
                · refine Or.inl ⟨?_, ?_⟩ <;>
                    simp only [stepGo, hv, hg, hc] <;> rw [if_pos hiv]
                  · exact h1
                  · exact h2
                · refine Or.inr ⟨r, jobs', visited', cnt', b1', b2', ?_, ?_,
                    hl1, hl2, hw⟩ <;>
                    simp only [stepGo, hv, hg, hc] <;> rw [if_pos hiv]
                  · exact h1
                  · exact h2
              · refine Or.inr ⟨false, jobs, v', cnt + 1, b1, b2, ?_, ?_,
                  rfl, rfl, wrel_refl b1 b2⟩ <;>
                  simp only [stepGo, hv, hg, hc] <;> rw [if_neg hiv]

/-- The backtrack loop is parametric in the output buffer's contents. -/
theorem backtrackGo_buffer_param (p : Params) :
    ∀ fuel (jobs : List Job) (visited : List Nat) (b1 b2 : List Bool)
      (matched : Bool) cnt,
    b1.length = b2.length →
    (backtrackGo p fuel ⟨b1, ⟨jobs, visited⟩⟩ matched cnt = none ∧
     backtrackGo p fuel ⟨b2, ⟨jobs, visited⟩⟩ matched cnt = none) ∨
    (∃ r jobs' visited' cnt' b1' b2',
      backtrackGo p fuel ⟨b1, ⟨jobs, visited⟩⟩ matched cnt =
        some (r, ⟨b1', ⟨jobs', visited'⟩⟩, cnt') ∧
      backtrackGo p fuel ⟨b2, ⟨jobs, visited⟩⟩ matched cnt =
        some (r, ⟨b2', ⟨jobs', visited'⟩⟩, cnt') ∧
      b1'.length = b1.length ∧ b2'.length = b2.length ∧
      wrel b1 b1' b2 b2') := by
  intro fuel
  induction fuel with
  | zero => intro jobs visited b1 b2 matched cnt _; exact Or.inl ⟨rfl, rfl⟩
  | succ fuel ih =>
    intro jobs visited b1 b2 matched cnt hlen
    cases jobs with
    | nil =>
      refine Or.inr ⟨matched, [], visited, cnt, b1, b2, ?_, ?_, rfl, rfl,
        wrel_refl b1 b2⟩ <;> simp only [backtrackGo]
    | cons job rest =>
      rcases stepGo_buffer_param p (stepFuel p) job.ip job.at_ rest visited
          b1 b2 cnt hlen with ⟨h1, h2⟩ | ⟨r, jobs1, vis1, cnt1, b1a, b2a,
            h1, h2, hl1, hl2, hw⟩
      · refine Or.inl ⟨?_, ?_⟩ <;> simp only [backtrackGo]
        · rw [h1]
        · rw [h2]
      · have hlen1 : b1a.length = b2a.length := by omega
        cases r with
        | true =>
          by_cases hml : p.prog.matches_.length = 1
          · refine Or.inr ⟨true, jobs1, vis1, cnt1, b1a, b2a, ?_, ?_,
              hl1, hl2, hw⟩ <;> simp only [backtrackGo]
            · simp only [h1]
              rw [if_pos trivial, if_pos hml]
            · simp only [h2]
              rw [if_pos trivial, if_pos hml]
          · rcases ih jobs1 vis1 b1a b2a true cnt1 hlen1 with
              ⟨g1, g2⟩ | ⟨r', jobs2, vis2, cnt2, b1b, b2b, g1, g2,
                gl1, gl2, gw⟩
            · refine Or.inl ⟨?_, ?_⟩ <;> simp only [backtrackGo]
              · simp only [h1]
                rw [if_pos trivial, if_neg hml]
                exact g1
              · simp only [h2]
                rw [if_pos trivial, if_neg hml]
                exact g2
            · refine Or.inr ⟨r', jobs2, vis2, cnt2, b1b, b2b, ?_, ?_,
                gl1.trans hl1, gl2.trans hl2, wrel_comp _ _ _ _ _ _ hw gw⟩ <;>
                simp only [backtrackGo]
              · simp only [h1]
                rw [if_pos trivial, if_neg hml]
                exact g1
              · simp only [h2]
                rw [if_pos trivial, if_neg hml]
                exact g2
        | false =>
          rcases ih jobs1 vis1 b1a b2a matched cnt1 hlen1 with
              ⟨g1, g2⟩ | ⟨r', jobs2, vis2, cnt2, b1b, b2b, g1, g2,
                gl1, gl2, gw⟩
          · refine Or.inl ⟨?_, ?_⟩ <;> simp only [backtrackGo]
            · simp only [h1]
              rw [if_neg Bool.false_ne_true]
              exact g1
            · simp only [h2]
              rw [if_neg Bool.false_ne_true]
              exact g2
          · refine Or.inr ⟨r', jobs2, vis2, cnt2, b1b, b2b, ?_, ?_,
              gl1.trans hl1, gl2.trans hl2, wrel_comp _ _ _ _ _ _ hw gw⟩ <;>
              simp only [backtrackGo]
            · simp only [h1]
              rw [if_neg Bool.false_ne_true]
              exact g1
            · simp only [h2]
              rw [if_neg Bool.false_ne_true]
              exact g2

/-- The scan loop of `exec_` is parametric in the output buffer's
contents. -/
theorem execGo_buffer_param (p : Params) :
    ∀ fuel (jobs : List Job) (visited : List Nat) (b1 b2 : List Bool)
      at_ end_ (matched : Bool) cnt tr,
    b1.length = b2.length →
    (execGo p fuel ⟨b1, ⟨jobs, visited⟩⟩ at_ end_ matched cnt tr = none ∧
     execGo p fuel ⟨b2, ⟨jobs, visited⟩⟩ at_ end_ matched cnt tr = none) ∨
    (∃ r jobs' visited' cnt' tr' b1' b2',
      execGo p fuel ⟨b1, ⟨jobs, visited⟩⟩ at_ end_ matched cnt tr =
        some (r, ⟨b1', ⟨jobs', visited'⟩⟩, cnt', tr') ∧
      execGo p fuel ⟨b2, ⟨jobs, visited⟩⟩ at_ end_ matched cnt tr =
        some (r, ⟨b2', ⟨jobs', visited'⟩⟩, cnt', tr') ∧
      b1'.length = b1.length ∧ b2'.length = b2.length ∧
      wrel b1 b1' b2 b2') := by
  intro fuel
  induction fuel with
  | zero =>
    intro jobs visited b1 b2 at_ end_ matched cnt tr _
    exact Or.inl ⟨rfl, rfl⟩
  | succ fuel ih =>
    intro jobs visited b1 b2 at_ end_ matched cnt tr hlen
    cases hpre : (if p.prog.prefixes.isEmptyLS then some at_
        else p.context.prefix_at p.prog.prefixes at_) with
    | none =>
      refine Or.inr ⟨matched, jobs, visited, cnt, tr, b1, b2, ?_, ?_,
        rfl, rfl, wrel_refl b1 b2⟩ <;> simp only [execGo, hpre]
    | some at' =>
      rcases backtrackGo_buffer_param p (loopFuel p) (⟨0, at'⟩ :: jobs)
          visited b1 b2 false cnt hlen with ⟨h1, h2⟩ | ⟨r, jobs1, vis1,
            cnt1, b1a, b2a, h1, h2, hl1, hl2, hw⟩
      · refine Or.inl ⟨?_, ?_⟩ <;> simp only [execGo, hpre, backtrack]
        · rw [h1]
        · rw [h2]
      · have hlen1 : b1a.length = b2a.length := by omega
        cases hguard : (r || matched) && decide (p.prog.matches_.length = 1)
          with
        | true =>
          refine Or.inr ⟨true, jobs1, vis1, cnt1, tr ++ [(at', r)],
            b1a, b2a, ?_, ?_, hl1, hl2, hw⟩ <;>
            simp only [execGo, hpre, backtrack]
          · simp only [h1, hguard]
            rw [if_pos trivial]
          · simp only [h2, hguard]
            rw [if_pos trivial]
        | false =>
          by_cases hge : at' ≥ end_
          · refine Or.inr ⟨r || matched, jobs1, vis1, cnt1,
              tr ++ [(at', r)], b1a, b2a, ?_, ?_, hl1, hl2, hw⟩ <;>
              simp only [execGo, hpre, backtrack]
            · simp only [h1, hguard]
              rw [if_neg Bool.false_ne_true, if_pos (by simpa using hge)]
            · simp only [h2, hguard]
              rw [if_neg Bool.false_ne_true, if_pos (by simpa using hge)]
          · rcases ih jobs1 vis1 b1a b2a (at' + 1) end_ (r || matched)
                cnt1 (tr ++ [(at', r)]) hlen1 with ⟨g1, g2⟩ |
                ⟨r', jobs2, vis2, cnt2, tr2, b1b, b2b, g1, g2,
                  gl1, gl2, gw⟩
            · refine Or.inl ⟨?_, ?_⟩ <;> simp only [execGo, hpre, backtrack]
              · simp only [h1, hguard]
                rw [if_neg Bool.false_ne_true, if_neg (by simpa using hge)]
                exact g1
              · simp only [h2, hguard]
                rw [if_neg Bool.false_ne_true, if_neg (by simpa using hge)]
                exact g2
            · refine Or.inr ⟨r', jobs2, vis2, cnt2, tr2, b1b, b2b, ?_, ?_,
                gl1.trans hl1, gl2.trans hl2,
                wrel_comp _ _ _ _ _ _ hw gw⟩ <;>
                simp only [execGo, hpre, backtrack]
              · simp only [h1, hguard]
                rw [if_neg Bool.false_ne_true, if_neg (by simpa using hge)]
                exact g1
              · simp only [h2, hguard]
                rw [if_neg Bool.false_ne_true, if_neg (by simpa using hge)]
                exact g2

/-- `exec_` depends on the cache only through `clear`: any two prior caches
give identical results. -/
theorem exec_cache_independent (p : Params) (b : List Bool) (c c' : Cache)
    (start end_ : Nat) :
    exec_ p ⟨b, c⟩ start end_ = exec_ p ⟨b, c'⟩ start end_ := by
  simp only [exec_, clear_eq_replicate]

/-- `exec_` is parametric in the output buffer's contents: same result,
same final cache, same counter and trace, same `true`-writes. -/
theorem exec_buffer_param (p : Params) (b1 b2 : List Bool) (c : Cache)
    (start end_ : Nat) (hlen : b1.length = b2.length) :
    (exec_ p ⟨b1, c⟩ start end_ = none ∧
     exec_ p ⟨b2, c⟩ start end_ = none) ∨
    (∃ r jobs' visited' cnt tr b1' b2',
      exec_ p ⟨b1, c⟩ start end_ =
        some (r, ⟨b1', ⟨jobs', visited'⟩⟩, cnt, tr) ∧
      exec_ p ⟨b2, c⟩ start end_ =
        some (r, ⟨b2', ⟨jobs', visited'⟩⟩, cnt, tr) ∧
      b1'.length = b1.length ∧ b2'.length = b2.length ∧
      wrel b1 b1' b2 b2') := by
  by_cases hanch : p.prog.is_anchored_start
  · rcases backtrackGo_buffer_param p (loopFuel p) [⟨0, start⟩]
        (List.replicate (visitedLen p) 0) b1 b2 false 0 hlen with
        ⟨h1, h2⟩ | ⟨r, jobs1, vis1, cnt1, b1a, b2a, h1, h2, hl1, hl2, hw⟩
    · refine Or.inl ⟨?_, ?_⟩ <;>
        simp only [exec_, clear_eq_replicate, if_pos hanch, backtrack]
      · rw [h1]; rfl
      · rw [h2]; rfl
    · refine Or.inr ⟨r, jobs1, vis1, cnt1, [(start, r)], b1a, b2a, ?_, ?_,
        hl1, hl2, hw⟩ <;>
        simp only [exec_, clear_eq_replicate, if_pos hanch, backtrack]
      · rw [h1]; rfl
      · rw [h2]; rfl
  · rcases execGo_buffer_param p (execFuel end_) []
        (List.replicate (visitedLen p) 0) b1 b2 start end_ false 0 []
        hlen with ⟨h1, h2⟩ | ⟨r, jobs1, vis1, cnt1, tr1, b1a, b2a,
          h1, h2, hl1, hl2, hw⟩
    · refine Or.inl ⟨?_, ?_⟩ <;>
        simp only [exec_, clear_eq_replicate, if_neg hanch]
      · exact h1
      · exact h2
    · refine Or.inr ⟨r, jobs1, vis1, cnt1, tr1, b1a, b2a, ?_, ?_,
        hl1, hl2, hw⟩ <;>
        simp only [exec_, clear_eq_replicate, if_neg hanch]
      · exact h1
      · exact h2

/-- C8: `exec_` never writes `false` into the output buffer: whenever it
returns, every output slot is either left with its prior value or set to
`true`, and the buffer length is unchanged; no slot is ever cleared. -/
theorem exec_never_writes_false (p : Params) (s : EState) (start end_ : Nat)
    (r : Bool) (s' : EState) (cnt : Nat) (tr : List (Nat × Bool))
    (h : exec_ p s start end_ = some (r, s', cnt, tr)) :
    s'.matches_.length = s.matches_.length ∧
    ∀ i, s'.matches_.get? i = s.matches_.get? i ∨
      s'.matches_.get? i = some true := by
  obtain ⟨b, mc⟩ := s
  rcases exec_buffer_param p b b mc start end_ rfl with ⟨h1, -⟩ |
    ⟨r', jobs', visited', cnt', tr', b1', b2', h1, -, hl1, -, hw⟩
  · rw [h] at h1; cases h1
  · rw [h, Option.some.injEq, Prod.mk.injEq, Prod.mk.injEq,
      Prod.mk.injEq] at h1
    obtain ⟨-, hs, -, -⟩ := h1
    subst hs
    exact ⟨hl1, fun i => (hw i).imp (fun hh => hh.1) (fun hh => hh.1)⟩

/-- C8 witness: the write-monotonicity facts at the concrete `a|b` run over
`"xba"` from the all-false buffer. -/
theorem exec_never_writes_false_witness :
    exec_ pAB ⟨[false], Cache.new⟩ 0 3 =
      some (true, ⟨[true], ⟨[], [13363]⟩⟩, 7, [(0, false), (1, true)]) ∧
    ([true] : List Bool).length = ([false] : List Bool).length ∧
    ∀ i, ([true] : List Bool).get? i = ([false] : List Bool).get? i ∨
      ([true] : List Bool).get? i = some true := by
  refine ⟨by decide, ?_⟩
  exact exec_never_writes_false pAB ⟨[false], Cache.new⟩ 0 3 true
    ⟨[true], ⟨[], [13363]⟩⟩ 7 [(0, false), (1, true)] (by decide)

/-- C7: running `exec_` twice in sequence on the same program, input and
range through the same cache instance returns the same boolean result both
times and leaves the output buffer and cache exactly as the first run did:
the second run's `clear` fully erases the first run's visited state and job
stack, and the second run re-performs the same `true`-writes, which change
nothing. -/
theorem exec_idempotent_cache_reuse (p : Params) (ms : List Bool)
    (c0 : Cache) (start end_ : Nat) (r1 : Bool) (s1 : EState) (cnt1 : Nat)
    (tr1 : List (Nat × Bool))
    (h1 : exec_ p ⟨ms, c0⟩ start end_ = some (r1, s1, cnt1, tr1)) :
    exec_ p ⟨s1.matches_, s1.m⟩ start end_ = some (r1, s1, cnt1, tr1) := by
  rcases exec_buffer_param p ms ms c0 start end_ rfl with ⟨hn, -⟩ |
    ⟨r', jobs', visited', cnt', tr', b1', b2', ha, -, hl1, -, -⟩
  · rw [h1] at hn; cases hn
  · rw [h1, Option.some.injEq, Prod.mk.injEq, Prod.mk.injEq,
      Prod.mk.injEq] at ha
    obtain ⟨hr, hs, hcnt, htr⟩ := ha
    subst hs
    have hlen : ms.length = b1'.length := hl1.symm
    rcases exec_buffer_param p ms b1' c0 start end_ hlen with ⟨hn2, -⟩ |
      ⟨r2, jobs2, visited2, cnt2, tr2, c1', c2', g1, g2, gl1, gl2, gw⟩
    · rw [h1] at hn2; cases hn2
    · rw [h1, Option.some.injEq, Prod.mk.injEq, Prod.mk.injEq,
        Prod.mk.injEq] at g1
      obtain ⟨hr2, hs2, hcnt2, htr2⟩ := g1
      rw [EState.mk.injEq, Cache.mk.injEq] at hs2
      obtain ⟨hc1, hj2, hv2⟩ := hs2
      have hc2 : c2' = b1' := by
        apply List.ext_get?
        intro i
        rcases gw i with ⟨p1, p2⟩ | ⟨p1, p2⟩
        · exact p2
        · rw [p2, hc1, p1]
      show exec_ p ⟨b1', ⟨jobs', visited'⟩⟩ start end_ =
        some (r1, ⟨b1', ⟨jobs', visited'⟩⟩, cnt1, tr1)
      rw [exec_cache_independent p b1' ⟨jobs', visited'⟩ c0, g2,
        ← hr2, ← hcnt2, ← htr2, hc2, ← hj2, ← hv2]

/-- C7 witness: the `a|b` run over `"xba"`, executed a second time through
the cache and buffer the first run produced, returns the same result and
the same buffer. -/
theorem exec_idempotent_cache_reuse_witness :
    exec_ pAB ⟨[false], Cache.new⟩ 0 3 =
      some (true, ⟨[true], ⟨[], [13363]⟩⟩, 7, [(0, false), (1, true)]) ∧
    exec_ pAB ⟨[true], ⟨[], [13363]⟩⟩ 0 3 =
      some (true, ⟨[true], ⟨[], [13363]⟩⟩, 7, [(0, false), (1, true)]) := by
  refine ⟨by decide, ?_⟩
  exact exec_idempotent_cache_reuse pAB [false] Cache.new 0 3 true
    ⟨[true], ⟨[], [13363]⟩⟩ 7 [(0, false), (1, true)] (by decide)

end RB
